import Mathlib

/-
Verification of the CTM compute core of the kolmogorov_complexity_estimator
repository against its specification.

The development shallowly embeds the two native modules:

* `native/encoder.pyx` — the transition codec (`tm_to_int`, `int_to_tm_table`,
  and the helper `_encode_transition_cy`).
* `native/turing_machine_ext.pyx` — the simulator step `cython_step` and the
  runtime filters `check_escapee` and `check_cycle_two`.

Modelling conventions:

* Python integers are modelled as `Nat` (machine codes, states, counters) or
  `Int` (tape positions, move codes).  The C `long` used by the codec can
  overflow for `n_states ≥ 7`; that platform limit is outside this model,
  which treats the integers mathematically.
* A transition table handed to the codec is total on `(state, symbol)` with
  `state ∈ 1..n` and `symbol ∈ {'0','1'}`; such a dict is represented by the
  list of its `2·n` transitions in the exact loop order both codec functions
  traverse: `(1,'0'), (1,'1'), (2,'0'), …, (n,'1')`.  (Python dict equality is
  content equality, so this canonical form loses nothing.)
* The simulator's transition table is an arbitrary dict, modelled as an
  association list with `tableLookup`; a missing key models `key not in
  transition_table`.
* The tape is a `collections.defaultdict`: a finite partial map from cell
  index to symbol whose `__getitem__` on a missing key inserts the blank
  symbol (materialisation).  It is modelled as an association list kept
  sorted by key, so that list equality coincides with content equality
  (`frozenset(tape.items())` comparison) on all reachable tapes.
-/

namespace KCE

/-- The two tape symbols, `SYMBOLS = ['0', '1']` in the source. -/
inductive Sym where
  | s0 : Sym
  | s1 : Sym
deriving DecidableEq

/-- Index of a symbol in `SYMBOLS_PY`. -/
def symIdx : Sym → Nat
  | .s0 => 0
  | .s1 => 1

/-- `SYMBOLS_PY[i]` for `i ∈ {0, 1}`. -/
def symOfIdx (i : Nat) : Sym := if i = 0 then .s0 else .s1

/-- `HALT_STATE_C = 0`. -/
def HALT_STATE : Nat := 0

/-- `MOVE_L_C = -1`. -/
def MOVE_L : Int := -1

/-- `MOVE_R_C = 1`. -/
def MOVE_R : Int := 1

/-- `MOVE_N_C = 0`. -/
def MOVE_N : Int := 0

/-- `NUM_SYMBOLS_C = 2`. -/
def NUM_SYMBOLS : Nat := 2

/-- A table value `(next_state, write_symbol, move_code)`. -/
structure Transition where
  nextState : Nat
  write : Sym
  move : Int
deriving DecidableEq

/-- `_encode_transition_cy` from `encoder.pyx` (the `n_states` argument is
unused there as well). -/
def encode_transition (t : Transition) (n_states : Nat) : Nat :=
  if t.nextState = HALT_STATE then
    if t.write = Sym.s0 then 0 else 1
  else
    2 + (t.nextState - 1) * (NUM_SYMBOLS * 2) +
      (symIdx t.write * 2 + (if t.move = MOVE_L then 0 else 1))

/-- Two's-complement wraparound of 64-bit signed C `long` arithmetic: the
value congruent to `x` modulo `2^64` lying in `[-2^63, 2^63)`. -/
def wrapLong (x : Int) : Int := (x + 2 ^ 63) % 2 ^ 64 - 2 ^ 63

/-- `tm_to_int` from `encoder.pyx`: fold the per-transition codes into a
big-endian base-`4·n+2` numeral, in the loop order
`(1,'0'), (1,'1'), …, (n,'1')` (which is the canonical order of the list).
The function is `cpdef long` with a `cdef long number` accumulator, so each
`number = number * base + code` is C `long` arithmetic: it wraps silently
modulo `2^64` in two's complement (one wrap per fold step composes to the
same value as per-operation wrapping). -/
def tm_to_int (tm_table : List Transition) (n_states : Nat) : Int :=
  List.foldl
    (fun number t =>
      wrapLong (number * (4 * n_states + 2) + encode_transition t n_states))
    0 tm_table

/-- The mathematical (unbounded) value of the encoder's fold: what
`tm_to_int` returns whenever no intermediate accumulator value overflows a
signed 64-bit `long`. -/
def tm_to_int_unbounded (tm_table : List Transition) (n_states : Nat) : Nat :=
  List.foldl
    (fun number t => number * (4 * n_states + 2) + encode_transition t n_states)
    0 tm_table

/-- The digit-extraction loop of `int_to_tm_table`: least-significant first,
`digits[i] = remainder % base; remainder //= base`. -/
def extractDigits (number base : Nat) : Nat → List Nat
  | 0 => []
  | k + 1 => number % base :: extractDigits (number / base) base k

/-- The per-digit decoding branch of `int_to_tm_table`. -/
def decode_digit (code : Nat) : Transition :=
  if code < NUM_SYMBOLS then
    { nextState := HALT_STATE, write := symOfIdx code, move := MOVE_N }
  else
    let offset_code := code - NUM_SYMBOLS
    let combos_per_state_action := NUM_SYMBOLS * 2
    let state_offset_idx := offset_code / combos_per_state_action
    let inner_combo_idx := offset_code % combos_per_state_action
    { nextState := state_offset_idx + 1,
      write := symOfIdx (inner_combo_idx / 2),
      move := if inner_combo_idx % 2 = 0 then MOVE_L else MOVE_R }

/-- `int_to_tm_table` from `encoder.pyx`: extract `2·n` digits LSB-first,
then build the table reading the digit array from the top (MSB first). -/
def int_to_tm_table (number : Nat) (n_states : Nat) : List Transition :=
  ((extractDigits number (4 * n_states + 2) (2 * n_states)).reverse).map decode_digit

/-- Concrete valid 7-state table whose encoder accumulator overflows a
signed 64-bit `long`: the table decoded from `2^64 + 5` (every digit a
decoder can produce for `n = 7` is a valid entry for 7 states, so the
decoder's output is a valid table). -/
def overflowTable7 : List Transition := int_to_tm_table (2 ^ 64 + 5) 7

/-- Validity of one table entry for `n` states: transitions into the halt
state carry move `None`; transitions into an active state target `1..n` and
move Left or Right. -/
def ValidTransition (n : Nat) (t : Transition) : Prop :=
  (t.nextState = HALT_STATE → t.move = MOVE_N) ∧
  (t.nextState ≠ HALT_STATE →
    t.nextState ≤ n ∧ (t.move = MOVE_L ∨ t.move = MOVE_R))

/-- A valid transition table for `n` states: total on the `2·n` keys (hence
length `2·n` in canonical order) with every entry valid. -/
def ValidTable (n : Nat) (tbl : List Transition) : Prop :=
  tbl.length = 2 * n ∧ ∀ t ∈ tbl, ValidTransition n t

/-- The big-endian digit of `k` at position `j` of the `2·n`-digit
serialisation in base `4·n+2` (position `0` most significant). -/
def bigEndianDigit (k n j : Nat) : Nat :=
  k / (4 * n + 2) ^ (2 * n - 1 - j) % (4 * n + 2)

/-- Modelled from the spec, section 4.1: the claimed decoding of one digit
`d`: `d = 0 ↦ (halt, '0', None)`, `d = 1 ↦ (halt, '1', None)`, and for
`d ≥ 2` with `e = d − 2`: `next_state = 1 + e ÷ 4`, write symbol index
`(e ÷ 2) mod 2`, move Left if `e` even else Right.  Stated for comparison
with `decode_digit`. -/
def specDigitTransition (d : Nat) : Transition :=
  if d = 0 then { nextState := 0, write := Sym.s0, move := 0 }
  else if d = 1 then { nextState := 0, write := Sym.s1, move := 0 }
  else
    { nextState := 1 + (d - 2) / 4,
      write := symOfIdx ((d - 2) / 2 % 2),
      move := if (d - 2) % 2 = 0 then MOVE_L else MOVE_R }

/-- Size of the static C digit buffer `cdef int[20] digits` in
`int_to_tm_table` (`boundscheck=False` is in force). -/
def digitBufferSize : Nat := 20

/-- The indices into the `digits` buffer touched by the decoder's two loops:
the extraction loop writes `digits[i]` for `i ∈ [0, 2·n)`, and the
construction loop reads `digits[current_digit_idx]` for
`current_digit_idx = 2·n - 1, …, 0` — the same index set. -/
def decoderDigitIndices (n_states : Nat) : List Nat := List.range (2 * n_states)

/-- Little-endian value of a digit list: `ofDigitsLE base [d0, d1, …]`
equals `d0 + base·(d1 + base·(…))`.  Helper for relating the encoder fold
and the decoder's digit extraction. -/
def ofDigitsLE (base : Nat) : List Nat → Nat
  | [] => 0
  | d :: ds => d + base * ofDigitsLE base ds

instance (n : Nat) (t : Transition) : Decidable (ValidTransition n t) := by
  unfold ValidTransition; infer_instance

instance (n : Nat) (tbl : List Transition) : Decidable (ValidTable n tbl) := by
  unfold ValidTable; infer_instance

/-- The tape `defaultdict`: a finite partial map from cell index to symbol,
kept as an association list sorted by key so that reachable tapes are in
canonical form (list equality = dict content equality). -/
abbrev Tape := List (Int × Sym)

/-- Dict lookup on the tape (no materialisation). -/
def tapeLookup : Tape → Int → Option Sym
  | [], _ => none
  | (k, v) :: rest, i => if i = k then some v else tapeLookup rest i

/-- Dict store `tape[i] = v`, keeping the list sorted by key. -/
def tapeInsert : Tape → Int → Sym → Tape
  | [], i, v => [(i, v)]
  | (k, w) :: rest, i, v =>
    if i < k then (i, v) :: (k, w) :: rest
    else if i = k then (i, v) :: rest
    else (k, w) :: tapeInsert rest i v

/-- `tape[i]` on a `defaultdict`: returns the stored symbol, or the blank
symbol while also materialising the cell (inserting `(i, blank)`). -/
def tapeRead (t : Tape) (i : Int) (blank : Sym) : Sym × Tape :=
  match tapeLookup t i with
  | some s => (s, t)
  | none => (blank, tapeInsert t i blank)

/-- The logical content of cell `i`: the stored symbol, defaulting to blank.
This is the value any `tape[i]` read yields. -/
def tapeAt (t : Tape) (blank : Sym) (i : Int) : Sym :=
  (tapeLookup t i).getD blank

/-- The attributes of the Python `TuringMachine` object that
`turing_machine_ext.pyx` manipulates. -/
structure TMConfig where
  current_state : Nat
  tape : Tape
  head_position : Int
  min_visited : Int
  max_visited : Int
  steps_taken : Nat
  blank_symbol : Sym
  num_states : Nat
deriving DecidableEq

/-- The simulator's transition table: an arbitrary dict keyed by
`(state, symbol)`, modelled as an association list. -/
abbrev TransTable := List ((Nat × Sym) × Transition)

/-- Dict lookup in the transition table; `none` models `key not in
transition_table`. -/
def tableLookup : TransTable → Nat × Sym → Option Transition
  | [], _ => none
  | (k, tr) :: rest, key => if key = k then some tr else tableLookup rest key

/-- `cython_step` from `turing_machine_ext.pyx`.  Returns the updated
machine object and the step verdict: `1` to continue, `0` to halt.  The read
`tape[head_position]` materialises the head cell; an undefined transition
sets the state to `HALT_STATE` and halts. -/
def cython_step (transition_table : TransTable) (tm : TMConfig) : TMConfig × Int :=
  if tm.current_state = HALT_STATE then (tm, 0)
  else
    let rd := tapeRead tm.tape tm.head_position tm.blank_symbol
    match tableLookup transition_table (tm.current_state, rd.1) with
    | none => ({ tm with tape := rd.2, current_state := HALT_STATE }, 0)
    | some tr =>
      let new_head := tm.head_position + tr.move
      ({ tm with
          tape := tapeInsert rd.2 tm.head_position tr.write,
          current_state := tr.nextState,
          head_position := new_head,
          min_visited := min tm.min_visited new_head,
          max_visited := max tm.max_visited new_head,
          steps_taken := tm.steps_taken + 1 },
        if tr.nextState = HALT_STATE then 0 else 1)

/-- The escapee filter's lazily created attributes
`_escapee_seen_positions` (a set of cell indices, kept as a sorted
duplicate-free list) and `_escapee_blank_run_count`. -/
structure EscState where
  seen_positions : List Int
  blank_run_count : Nat
deriving DecidableEq

/-- Set insertion into the sorted duplicate-free position list. -/
def posInsert : List Int → Int → List Int
  | [], i => [i]
  | k :: rest, i =>
    if i < k then i :: k :: rest
    else if i = k then k :: rest
    else k :: posInsert rest i

/-- `check_escapee` from `turing_machine_ext.pyx`.  `none` models the state
before the attributes exist (first call initialises them and returns
`False`).  The read `tape[current_pos]` materialises the head cell, so the
(possibly updated) machine object is returned alongside the new filter state
and the verdict. -/
def check_escapee (tm : TMConfig) (fs : Option EscState) :
    TMConfig × EscState × Bool :=
  match fs with
  | none => (tm, { seen_positions := [tm.head_position], blank_run_count := 0 }, false)
  | some es =>
    let rd := tapeRead tm.tape tm.head_position tm.blank_symbol
    let is_blank : Bool := rd.1 = tm.blank_symbol
    let is_new : Bool := ¬ (tm.head_position ∈ es.seen_positions)
    let es' : EscState :=
      if is_blank && is_new then
        { seen_positions := posInsert es.seen_positions tm.head_position,
          blank_run_count := es.blank_run_count + 1 }
      else
        { es with blank_run_count := 0 }
    ({ tm with tape := rd.2 }, es', decide (es'.blank_run_count > tm.num_states))

/-- One entry of the period-2 filter's history:
`(current_state, head_position, frozenset(tape.items()))`.  On reachable
(sorted) tapes, equality of the `Tape` lists is exactly equality of the
frozensets. -/
abbrev CycleConfig := Nat × Int × Tape

/-- `check_cycle_two` from `turing_machine_ext.pyx`: append the current
configuration to the `deque(maxlen=3)` history and report `True` iff the
history holds three entries and the first equals the third. -/
def check_cycle_two (tm : TMConfig) (history : List CycleConfig) :
    List CycleConfig × Bool :=
  let config : CycleConfig := (tm.current_state, tm.head_position, tm.tape)
  let history' :=
    if history.length = 3 then history.drop 1 ++ [config] else history ++ [config]
  (history', decide (history'.length = 3 ∧ history'.get? 0 = history'.get? 2))

/-- The machine together with the accumulated state of both runtime filters
and their verdicts from the latest step. -/
structure SimState where
  tm : TMConfig
  esc_state : Option EscState
  esc_verdict : Bool
  cyc_history : List CycleConfig
  cyc_verdict : Bool
deriving DecidableEq

/-- The initial configuration of a run: blank tape (empty dict), head at 0,
state 1, `min_visited = max_visited = 0`, no steps taken. -/
def initialTM (n : Nat) (blank : Sym) : TMConfig :=
  { current_state := 1, tape := [], head_position := 0, min_visited := 0,
    max_visited := 0, steps_taken := 0, blank_symbol := blank, num_states := n }

/-- Initial simulation state: filters not yet initialised. -/
def initialSim (n : Nat) (blank : Sym) : SimState :=
  { tm := initialTM n blank, esc_state := none, esc_verdict := false,
    cyc_history := [], cyc_verdict := false }

/-- One driver step: `cython_step`, then `check_escapee`, then
`check_cycle_two` (both filters are queried after every simulator step, per
spec section 4.5). -/
def simStep (tbl : TransTable) (s : SimState) : SimState :=
  let r1 := cython_step tbl s.tm
  let r2 := check_escapee r1.1 s.esc_state
  let r3 := check_cycle_two r2.1 s.cyc_history
  { tm := r2.1, esc_state := some r2.2.1, esc_verdict := r2.2.2,
    cyc_history := r3.1, cyc_verdict := r3.2 }

/-- The canonical run with both filters enabled. -/
def simRun (tbl : TransTable) (n : Nat) (blank : Sym) : Nat → SimState
  | 0 => initialSim n blank
  | k + 1 => simStep tbl (simRun tbl n blank k)

/-- A run with only the period-2 filter enabled (the driver may disable the
escapee filter): machine, cycle history, and latest cycle verdict. -/
def cycleOnlyRun (tbl : TransTable) (n : Nat) (blank : Sym) :
    Nat → TMConfig × List CycleConfig × Bool
  | 0 => (initialTM n blank, [], false)
  | k + 1 =>
    let prev := cycleOnlyRun tbl n blank k
    let r1 := cython_step tbl prev.1
    let r2 := check_cycle_two r1.1 prev.2.1
    (r1.1, r2.1, r2.2)

/-- Repeated application of `cython_step` alone (no filters), as in the
claims' "further cython_step applications". -/
def cythonIter (tbl : TransTable) (tm : TMConfig) : Nat → TMConfig
  | 0 => tm
  | k + 1 => (cython_step tbl (cythonIter tbl tm k)).1

/-- Modelled from the spec, section 4.5: the period-2 filter's snapshot as
the spec describes it — the content of tape cells
`min_visited..max_visited`.  Stated for comparison with the snapshot
`check_cycle_two` actually takes (`frozenset(tape.items())`). -/
def specTapeSnapshot (tm : TMConfig) : List Sym :=
  (List.range (tm.max_visited - tm.min_visited + 1).toNat).map
    (fun i => tapeAt tm.tape tm.blank_symbol (tm.min_visited + i))

/-- Modelled from the spec, section 4.5: a history entry
`(state, head, tape_snapshot)` with the spec's notion of snapshot. -/
def specCycleConfig (tm : TMConfig) : Nat × Int × List Sym :=
  (tm.current_state, tm.head_position, specTapeSnapshot tm)

/-- The visited-range invariant of spec section 3. -/
def VisitedInv (tm : TMConfig) : Prop :=
  tm.min_visited ≤ tm.head_position ∧ tm.head_position ≤ tm.max_visited

instance (tm : TMConfig) : Decidable (VisitedInv tm) := by
  unfold VisitedInv; infer_instance

/-- Every entry present in a simulator table is valid for `n` states. -/
def ValidEntries (n : Nat) (tbl : TransTable) : Prop :=
  ∀ e ∈ tbl, ValidTransition n e.2

instance (n : Nat) (tbl : TransTable) : Decidable (ValidEntries n tbl) := by
  unfold ValidEntries; infer_instance

/-- The step-relevant projection of a machine configuration: state, head,
and the logical (total) tape content.  `min_visited`, `max_visited` and
`steps_taken` do not influence stepping. -/
@[ext] structure MConfig where
  state : Nat
  head : Int
  tape : Int → Sym

/-- The pure step function on logical configurations: exactly the
state/head/content effect of `cython_step`. -/
def mstep (tbl : TransTable) (c : MConfig) : MConfig :=
  if c.state = HALT_STATE then c
  else
    match tableLookup tbl (c.state, c.tape c.head) with
    | none => { c with state := HALT_STATE }
    | some tr =>
      { state := tr.nextState, head := c.head + tr.move,
        tape := fun x => if x = c.head then tr.write else c.tape x }

/-- Iterated pure step. -/
def mstepIter (tbl : TransTable) : Nat → MConfig → MConfig
  | 0, c => c
  | k + 1, c => mstep tbl (mstepIter tbl k c)

/-- The logical view of a machine object. -/
def mview (tm : TMConfig) : MConfig :=
  { state := tm.current_state, head := tm.head_position,
    tape := fun x => tapeAt tm.tape tm.blank_symbol x }

/-- The pure run from the initial configuration. -/
def mrun (tbl : TransTable) (blank : Sym) (k : Nat) : MConfig :=
  mstepIter tbl k { state := 1, head := 0, tape := fun _ => blank }

/-- Translation of a logical configuration by `δ` cells. -/
def cShift (δ : Int) (c : MConfig) : MConfig :=
  { state := c.state, head := c.head + δ, tape := fun x => c.tape (x - δ) }

/-- Two logical configurations agree on the half-line of direction `d`
based at `b` (same state, same head, same content on
`{x : d·(x − b) ≥ 0}`). -/
def AgreeFrom (d b : Int) (c c' : MConfig) : Prop :=
  c.state = c'.state ∧ c.head = c'.head ∧
    ∀ x : Int, 0 ≤ d * (x - b) → c.tape x = c'.tape x

/-- The escapee filter's seen-set after `k` driver steps of the canonical
run (empty before the filter's attributes exist). -/
def escSeen (tbl : TransTable) (n : Nat) (blank : Sym) (k : Nat) : List Int :=
  match (simRun tbl n blank k).esc_state with
  | none => []
  | some es => es.seen_positions

/-- The escapee filter's blank-run counter after `k` driver steps of the
canonical run. -/
def escRun (tbl : TransTable) (n : Nat) (blank : Sym) (k : Nat) : Nat :=
  match (simRun tbl n blank k).esc_state with
  | none => 0
  | some es => es.blank_run_count

/-- The escapee filter's increment condition at query `k` of the canonical
run: after step `k` the head cell reads blank and is not in the seen-set
accumulated through query `k − 1`. -/
def EscInc (tbl : TransTable) (n : Nat) (blank : Sym) (k : Nat) : Prop :=
  (mrun tbl blank k).tape ((mrun tbl blank k).head) = blank ∧
    ¬ (mrun tbl blank k).head ∈ escSeen tbl n blank (k - 1)

/-- The history entry the period-2 filter records after step `k` of the
canonical run. -/
def cycSnap (tbl : TransTable) (n : Nat) (blank : Sym) (k : Nat) : CycleConfig :=
  ((simRun tbl n blank k).tm.current_state,
    (simRun tbl n blank k).tm.head_position,
    (simRun tbl n blank k).tm.tape)

/-- Concrete 2-state test machine: writes `1` at cell 0, then ping-pongs
between cells 0 and 1 for ever (blank `'0'`). -/
def pingPongTable : TransTable :=
  [((1, Sym.s0), ⟨2, Sym.s1, 1⟩), ((1, Sym.s1), ⟨2, Sym.s1, 1⟩),
   ((2, Sym.s0), ⟨1, Sym.s0, -1⟩), ((2, Sym.s1), ⟨0, Sym.s0, 0⟩)]

/-- Concrete 1-state test machine that halts on its very first step. -/
def haltImmediatelyTable : TransTable :=
  [((1, Sym.s0), ⟨0, Sym.s1, 0⟩), ((1, Sym.s1), ⟨0, Sym.s1, 0⟩)]

/-- Concrete test machine whose transitions target states `2..4`, i.e. it is
not a table for `num_states = 1`; it walks right three times and then
halts. -/
def overStateTable : TransTable :=
  [((1, Sym.s0), ⟨2, Sym.s0, 1⟩), ((2, Sym.s0), ⟨3, Sym.s0, 1⟩),
   ((3, Sym.s0), ⟨4, Sym.s0, 1⟩), ((4, Sym.s0), ⟨0, Sym.s1, 0⟩)]

/-- Concrete valid 1-state machine that moves right for ever. -/
def rightMoverTable : TransTable :=
  [((1, Sym.s0), ⟨1, Sym.s0, 1⟩), ((1, Sym.s1), ⟨1, Sym.s1, 1⟩)]

/-! ### Codec lemmas -/

theorem symIdx_le_one (s : Sym) : symIdx s ≤ 1 := by
  cases s <;> simp [symIdx]

theorem symOfIdx_symIdx (s : Sym) : symOfIdx (symIdx s) = s := by
  cases s <;> simp [symIdx, symOfIdx]

theorem symIdx_symOfIdx {i : Nat} (h : i ≤ 1) : symIdx (symOfIdx i) = i := by
  interval_cases i <;> simp [symIdx, symOfIdx]

theorem ofDigitsLE_concat (b d : Nat) (ds : List Nat) :
    ofDigitsLE b (ds ++ [d]) = ofDigitsLE b ds + b ^ ds.length * d := by
  induction ds with
  | nil => simp [ofDigitsLE]
  | cons e es ih =>
    show e + b * ofDigitsLE b (es ++ [d]) = _
    rw [ih, List.length_cons]
    show _ = e + b * ofDigitsLE b es + b ^ (es.length + 1) * d
    ring

theorem foldl_mulAdd (b : Nat) (l : List Nat) (a : Nat) :
    l.foldl (fun x d => x * b + d) a = a * b ^ l.length + ofDigitsLE b l.reverse := by
  induction l generalizing a with
  | nil => simp [ofDigitsLE]
  | cons d ds ih =>
    simp only [List.foldl_cons, ih (a * b + d), List.reverse_cons, ofDigitsLE_concat,
      List.length_reverse, List.length_cons]
    ring

theorem tm_to_int_eq (tbl : List Transition) (n : Nat) :
    tm_to_int_unbounded tbl n =
      ofDigitsLE (4 * n + 2) ((tbl.map (fun t => encode_transition t n)).reverse) := by
  unfold tm_to_int_unbounded
  rw [← List.foldl_map (fun t => encode_transition t n)
    (fun (x d : Nat) => x * (4 * n + 2) + d), foldl_mulAdd]
  simp

theorem wrapLong_eq_self (x : Int) (h1 : -(2 ^ 63) ≤ x) (h2 : x < 2 ^ 63) :
    wrapLong x = x := by
  unfold wrapLong
  omega

theorem foldl_encode_le (n : Nat) (rest : List Transition) :
    ∀ a : Nat, a ≤
      List.foldl (fun number t => number * (4 * n + 2) + encode_transition t n)
        a rest := by
  induction rest with
  | nil => intro a; exact le_refl a
  | cons t rest ih =>
    intro a
    simp only [List.foldl_cons]
    calc a ≤ a * (4 * n + 2) + encode_transition t n := by
          have h := Nat.le_mul_of_pos_right a (show 0 < 4 * n + 2 by omega)
          omega
      _ ≤ _ := ih _

theorem tm_to_int_agree (n : Nat) :
    ∀ (tbl : List Transition) (a : Nat),
      List.foldl (fun number t => number * (4 * n + 2) + encode_transition t n)
        a tbl < 2 ^ 63 →
      List.foldl
        (fun number t => wrapLong (number * (4 * n + 2) + encode_transition t n))
        (a : Int) tbl =
      ((List.foldl (fun number t => number * (4 * n + 2) + encode_transition t n)
        a tbl : Nat) : Int) := by
  intro tbl
  induction tbl with
  | nil =>
    intro a _
    rfl
  | cons t rest ih =>
    intro a h
    simp only [List.foldl_cons] at h ⊢
    have hmono : a * (4 * n + 2) + encode_transition t n ≤
        List.foldl (fun number t => number * (4 * n + 2) + encode_transition t n)
          (a * (4 * n + 2) + encode_transition t n) rest :=
      foldl_encode_le n rest _
    have hstep : wrapLong ((a : Int) * (4 * n + 2) + encode_transition t n) =
        ((a * (4 * n + 2) + encode_transition t n : Nat) : Int) := by
      have hnn : (0 : Int) ≤ (a : Int) * (4 * n + 2) + encode_transition t n := by
        positivity
      have hlt : ((a * (4 * n + 2) + encode_transition t n : Nat) : Int) < 2 ^ 63 := by
        exact_mod_cast lt_of_le_of_lt hmono h
      have hlt' : (a : Int) * (4 * n + 2) + encode_transition t n < 2 ^ 63 := by
        push_cast at hlt
        linarith
      rw [wrapLong_eq_self _ (by linarith) hlt']
      push_cast
      ring
    rw [hstep]
    exact ih _ h

theorem tm_to_int_eq_unbounded (tbl : List Transition) (n : Nat)
    (h : tm_to_int_unbounded tbl n < 2 ^ 63) :
    tm_to_int tbl n = (tm_to_int_unbounded tbl n : Int) := by
  unfold tm_to_int_unbounded at h ⊢
  unfold tm_to_int
  exact tm_to_int_agree n tbl 0 h

theorem extractDigits_length (b : Nat) : ∀ (k N : Nat), (extractDigits N b k).length = k := by
  intro k
  induction k with
  | zero => intro N; rfl
  | succ k ih => intro N; simp [extractDigits, ih]

theorem extractDigits_lt (b : Nat) (hb : 0 < b) :
    ∀ (k N : Nat), ∀ d ∈ extractDigits N b k, d < b := by
  intro k
  induction k with
  | zero => intro N d hd; simp [extractDigits] at hd
  | succ k ih =>
    intro N d hd
    simp only [extractDigits, List.mem_cons] at hd
    rcases hd with h | h
    · exact h ▸ Nat.mod_lt _ hb
    · exact ih _ d h

theorem extractDigits_ofDigitsLE (b : Nat) (hb : 0 < b) (ds : List Nat)
    (h : ∀ d ∈ ds, d < b) :
    extractDigits (ofDigitsLE b ds) b ds.length = ds := by
  induction ds with
  | nil => rfl
  | cons d es ih =>
    have hd : d < b := h d (by simp)
    simp only [ofDigitsLE, List.length_cons, extractDigits, List.cons.injEq]
    refine ⟨?_, ?_⟩
    · rw [Nat.add_mul_mod_self_left, Nat.mod_eq_of_lt hd]
    · rw [Nat.add_mul_div_left _ _ hb, Nat.div_eq_of_lt hd, Nat.zero_add]
      exact ih (fun e he => h e (by simp [he]))

theorem ofDigitsLE_extractDigits (b : Nat) :
    ∀ (k N : Nat), ofDigitsLE b (extractDigits N b k) = N % b ^ k := by
  intro k
  induction k with
  | zero => intro N; simp [extractDigits, ofDigitsLE, Nat.mod_one]
  | succ k ih =>
    intro N
    simp only [extractDigits, ofDigitsLE, ih]
    rw [pow_succ', Nat.mod_mul]

theorem extractDigits_get? (b : Nat) :
    ∀ (k N i : Nat), i < k → (extractDigits N b k).get? i = some (N / b ^ i % b) := by
  intro k
  induction k with
  | zero => intro N i h; omega
  | succ k ih =>
    intro N i h
    cases i with
    | zero => simp [extractDigits]
    | succ i =>
      simp only [extractDigits, List.get?_cons_succ]
      rw [ih _ i (by omega), Nat.div_div_eq_div_mul, ← pow_succ']

theorem extractDigits_mod (b : Nat) (hb : 0 < b) :
    ∀ (k N : Nat), extractDigits N b k = extractDigits (N % b ^ k) b k := by
  intro k
  induction k with
  | zero => intro N; rfl
  | succ k ih =>
    intro N
    simp only [extractDigits, List.cons.injEq]
    have hdvd : b ∣ b ^ (k + 1) := dvd_pow_self b (Nat.succ_ne_zero k)
    refine ⟨(Nat.mod_mod_of_dvd N hdvd).symm, ?_⟩
    have hdiv : N % b ^ (k + 1) / b = N / b % b ^ k := by
      rw [pow_succ', Nat.mod_mul, Nat.add_mul_div_left _ _ hb,
        Nat.div_eq_of_lt (Nat.mod_lt _ hb), Nat.zero_add]
    rw [hdiv, ih (N / b)]

theorem encode_transition_lt {n : Nat} {t : Transition}
    (hv : ValidTransition n t) : encode_transition t n < 4 * n + 2 := by
  unfold encode_transition
  by_cases h : t.nextState = HALT_STATE
  · simp only [h, if_true]
    split <;> omega
  · obtain ⟨hle, hmv⟩ := hv.2 h
    have h1 : symIdx t.write ≤ 1 := symIdx_le_one _
    have h2 : 1 ≤ t.nextState := Nat.one_le_iff_ne_zero.2 h
    simp only [h, if_false, NUM_SYMBOLS]
    have h3 : (if t.move = MOVE_L then 0 else 1) ≤ 1 := by split <;> omega
    omega

theorem decode_digit_active (s wi mi : Nat) (hs : 1 ≤ s) (hw : wi ≤ 1) (hm : mi ≤ 1) :
    decode_digit (2 + (s - 1) * 4 + (wi * 2 + mi)) =
      { nextState := s, write := symOfIdx wi,
        move := if mi = 0 then MOVE_L else MOVE_R } := by
  unfold decode_digit
  have hlt : ¬ (2 + (s - 1) * 4 + (wi * 2 + mi) < NUM_SYMBOLS) := by
    simp only [NUM_SYMBOLS]; omega
  simp only [NUM_SYMBOLS, show (2 : Nat) * 2 = 4 from rfl] at hlt ⊢
  simp only [hlt, if_false]
  have e1 : (2 + (s - 1) * 4 + (wi * 2 + mi) - 2) / 4 + 1 = s := by omega
  have e2 : (2 + (s - 1) * 4 + (wi * 2 + mi) - 2) % 4 / 2 = wi := by omega
  have e3 : (2 + (s - 1) * 4 + (wi * 2 + mi) - 2) % 4 % 2 = mi := by omega
  simp only [e1, e2, e3]

theorem decode_encode_transition {n : Nat} {t : Transition}
    (hv : ValidTransition n t) : decode_digit (encode_transition t n) = t := by
  obtain ⟨s, w, mv⟩ := t
  by_cases h : s = HALT_STATE
  · have hm : mv = MOVE_N := hv.1 h
    simp only [HALT_STATE] at h
    subst h
    rw [hm]
    cases w <;> rfl
  · obtain ⟨hle, hmv⟩ := hv.2 h
    have h2 : 1 ≤ s := Nat.one_le_iff_ne_zero.2 h
    have henc : encode_transition ⟨s, w, mv⟩ n =
        2 + (s - 1) * 4 + (symIdx w * 2 + (if mv = MOVE_L then 0 else 1)) := by
      unfold encode_transition
      simp only [h, if_false, NUM_SYMBOLS]
    rw [henc, decode_digit_active s (symIdx w) _ h2 (symIdx_le_one w) (by split <;> omega)]
    rw [symOfIdx_symIdx]
    rcases hmv with hm | hm <;> subst hm <;> simp [MOVE_L, MOVE_R]

theorem encode_decode_digit (d n : Nat) :
    encode_transition (decode_digit d) n = d := by
  unfold decode_digit encode_transition
  by_cases h : d < NUM_SYMBOLS
  · simp only [h, if_true]
    simp only [NUM_SYMBOLS] at h
    interval_cases d <;> simp [symOfIdx, HALT_STATE, MOVE_N]
  · simp only [h, if_false]
    have h4 : (d - NUM_SYMBOLS) % (NUM_SYMBOLS * 2) / 2 ≤ 1 := by
      simp only [NUM_SYMBOLS]; omega
    simp only [NUM_SYMBOLS, show (2 : Nat) * 2 = 4 from rfl] at h h4 ⊢
    simp only [HALT_STATE, Nat.succ_ne_zero, if_false, symIdx_symOfIdx h4]
    by_cases hp : (d - 2) % 4 % 2 = 0 <;>
      simp only [hp, if_true, if_false, reduceIte, MOVE_L, MOVE_R] <;> norm_num <;> omega

theorem decode_digit_eq_spec (d : Nat) : decode_digit d = specDigitTransition d := by
  unfold decode_digit specDigitTransition
  by_cases h0 : d = 0
  · simp [h0, NUM_SYMBOLS, symOfIdx, HALT_STATE, MOVE_N]
  by_cases h1 : d = 1
  · simp [h1, NUM_SYMBOLS, symOfIdx, HALT_STATE, MOVE_N]
  have h2 : ¬ d < 2 := by omega
  simp only [h0, h1, h2, if_false, NUM_SYMBOLS, show (2 : Nat) * 2 = 4 from rfl]
  have e1 : (d - 2) / 4 + 1 = 1 + (d - 2) / 4 := by omega
  have e2 : (d - 2) % 4 / 2 = (d - 2) / 2 % 2 := by omega
  have e3 : (d - 2) % 4 % 2 = (d - 2) % 2 := by omega
  simp only [e1, e2, e3]

/-! ### Claims about the codec -/

/-- Claim C1 (amended): codec round-trip on the domain where the `cdef long`
accumulator does not overflow.  For every `n ≥ 1` and every valid transition
table `t` for `n` states (total, halt entries move None, active entries
target `1..n` and move Left or Right) whose code fits a signed 64-bit
`long` (`tm_to_int_unbounded t n < 2^63`, true of every valid table when
`n ≤ 6`), `int_to_tm_table (tm_to_int t n).toNat n = t`; and for every
`0 ≤ k < (4·n+2)^(2·n)` with `k < 2^63`,
`tm_to_int (int_to_tm_table k n) n = k`. -/
theorem codec_roundtrip (n : Nat) (hn : 1 ≤ n) (tbl : List Transition)
    (ht : ValidTable n tbl) (hfit : tm_to_int_unbounded tbl n < 2 ^ 63)
    (k : Nat) (hk : k < (4 * n + 2) ^ (2 * n)) (hk63 : k < 2 ^ 63) :
    int_to_tm_table (tm_to_int tbl n).toNat n = tbl ∧
      tm_to_int (int_to_tm_table k n) n = (k : Int) := by
  have hb : 0 < 4 * n + 2 := by omega
  constructor
  · rw [tm_to_int_eq_unbounded tbl n hfit, Int.toNat_natCast]
    unfold int_to_tm_table
    rw [tm_to_int_eq]
    have hlen : ((tbl.map (fun t => encode_transition t n)).reverse).length = 2 * n := by
      simp [ht.1]
    have hbound : ∀ d ∈ (tbl.map (fun t => encode_transition t n)).reverse,
        d < 4 * n + 2 := by
      intro d hd
      simp only [List.mem_reverse, List.mem_map] at hd
      obtain ⟨t, htm, rfl⟩ := hd
      exact encode_transition_lt (ht.2 t htm)
    rw [← hlen, extractDigits_ofDigitsLE _ hb _ hbound, List.reverse_reverse,
      List.map_map]
    have hid : ∀ t ∈ tbl, (decode_digit ∘ fun t => encode_transition t n) t = id t :=
      fun t htm => decode_encode_transition (ht.2 t htm)
    rw [List.map_congr_left hid, List.map_id]
  · have hun : tm_to_int_unbounded (int_to_tm_table k n) n = k := by
      rw [tm_to_int_eq]
      unfold int_to_tm_table
      rw [List.map_map]
      have hid : ∀ d ∈ (extractDigits k (4 * n + 2) (2 * n)).reverse,
          ((fun t => encode_transition t n) ∘ decode_digit) d = id d :=
        fun d _ => encode_decode_digit d n
      rw [List.map_congr_left hid, List.map_id, List.reverse_reverse,
        ofDigitsLE_extractDigits, Nat.mod_eq_of_lt hk]
    rw [tm_to_int_eq_unbounded _ n (by rw [hun]; exact hk63), hun]

set_option maxRecDepth 4000 in
/-- Claim C1 is false as stated: for `n = 7` the encoder's `cdef long`
accumulator overflows on valid tables.  `overflowTable7` is a valid 7-state
table whose mathematical code is `2^64 + 5 > 2^63`, yet `tm_to_int` silently
wraps and returns `5`, so decoding the returned code does not give back the
table. -/
theorem codec_roundtrip_counterexample :
    ValidTable 7 overflowTable7 ∧
      tm_to_int_unbounded overflowTable7 7 = 2 ^ 64 + 5 ∧
      2 ^ 63 ≤ tm_to_int_unbounded overflowTable7 7 ∧
      tm_to_int overflowTable7 7 = 5 ∧
      ¬ int_to_tm_table (tm_to_int overflowTable7 7).toNat 7 = overflowTable7 := by
  decide

/-- Witness for `codec_roundtrip`: `n = 1`, the valid table
`[(halt,'1',N), (1,'0',R)]` (code `7 < 2^63`), and `k = 17 < 36`. -/
theorem codec_roundtrip_witness :
    1 ≤ 1 ∧ ValidTable 1 [⟨0, Sym.s1, 0⟩, ⟨1, Sym.s0, 1⟩] ∧
      tm_to_int_unbounded [⟨0, Sym.s1, 0⟩, ⟨1, Sym.s0, 1⟩] 1 < 2 ^ 63 ∧
      17 < (4 * 1 + 2) ^ (2 * 1) ∧ 17 < 2 ^ 63 ∧
      (int_to_tm_table (tm_to_int [⟨0, Sym.s1, 0⟩, ⟨1, Sym.s0, 1⟩] 1).toNat 1 =
          [⟨0, Sym.s1, 0⟩, ⟨1, Sym.s0, 1⟩] ∧
        tm_to_int (int_to_tm_table 17 1) 1 = (17 : Int)) :=
  ⟨le_refl 1, by decide, by decide, by decide, by decide,
    codec_roundtrip 1 (le_refl 1) _ (by decide) (by decide) 17 (by decide)
      (by decide)⟩

/-- Claim C3 counterexample: `36 = (4·1+2)^(2·1)` is out of range for
`n_states = 1`, yet `int_to_tm_table` rejects nothing: it returns a full,
valid transition table (that of code `0 = 36 mod 36`) instead of failing. -/
theorem int_to_tm_table_no_range_check :
    (4 * 1 + 2) ^ (2 * 1) ≤ 36 ∧
      int_to_tm_table 36 1 =
        [⟨HALT_STATE, Sym.s0, MOVE_N⟩, ⟨HALT_STATE, Sym.s0, MOVE_N⟩] ∧
      ValidTable 1 (int_to_tm_table 36 1) ∧
      int_to_tm_table 36 1 = int_to_tm_table 0 1 := by decide

/-- Claim C3 amended: the native decoder performs no range check; for every
`k ≥ 0` (in particular every `k ≥ (4·n+2)^(2·n)`) it returns — rather than
an error — the transition table of the in-range code `k mod (4·n+2)^(2·n)`,
simply discarding the higher digits. -/
theorem int_to_tm_table_mod (n k : Nat) :
    int_to_tm_table k n = int_to_tm_table (k % (4 * n + 2) ^ (2 * n)) n := by
  unfold int_to_tm_table
  rw [extractDigits_mod (4 * n + 2) (by omega) (2 * n) k]

/-- Claim C7: digit decoding formula.  `int_to_tm_table k n` places at the
table position for `(state, symbol)` — index `2·(state−1) + symbol_index` in
the canonical order, state 1 / symbol '0' most significant — exactly the
spec's decoding of the big-endian digit of `k` at that position. -/
theorem int_to_tm_table_digit_formula (n k state : Nat) (sym : Sym)
    (h1 : 1 ≤ state) (h2 : state ≤ n) :
    (int_to_tm_table k n).get? (2 * (state - 1) + symIdx sym) =
      some (specDigitTransition
        (bigEndianDigit k n (2 * (state - 1) + symIdx sym))) := by
  have hsym := symIdx_le_one sym
  set j := 2 * (state - 1) + symIdx sym with hj
  unfold int_to_tm_table bigEndianDigit
  rw [List.get?_map]
  have hlen : (extractDigits k (4 * n + 2) (2 * n)).length = 2 * n :=
    extractDigits_length _ _ _
  have hjlt : j < (extractDigits k (4 * n + 2) (2 * n)).length := by
    rw [hlen]; omega
  rw [List.get?_reverse hjlt, hlen]
  rw [extractDigits_get? _ _ _ _ (by omega)]
  simp [decode_digit_eq_spec]

/-- Witness for `int_to_tm_table_digit_formula`: `n = 2`, `k = 100`,
`state = 2`, symbol `'1'`. -/
theorem int_to_tm_table_digit_formula_witness :
    1 ≤ 2 ∧ 2 ≤ 2 ∧
      (int_to_tm_table 100 2).get? (2 * (2 - 1) + symIdx Sym.s1) =
        some (specDigitTransition
          (bigEndianDigit 100 2 (2 * (2 - 1) + symIdx Sym.s1))) :=
  ⟨by decide, by decide,
    int_to_tm_table_digit_formula 2 100 2 Sym.s1 (by decide) (by decide)⟩

/-- Claim C10: the decoder writes and reads the static C array
`cdef int[20] digits` (with `boundscheck=False`) at exactly the indices
`0..2·n_states−1`; all of them lie below the buffer size 20 precisely when
`n_states ≤ 10`, so for `n_states ≥ 11` the loops index past the end. -/
theorem decoder_digit_buffer_bounds (n_states : Nat) :
    (∀ i ∈ decoderDigitIndices n_states, i < digitBufferSize) ↔ n_states ≤ 10 := by
  unfold decoderDigitIndices digitBufferSize
  simp only [List.mem_range]
  constructor
  · intro h
    by_contra hc
    have h20 : 20 < 2 * n_states := by omega
    exact absurd (h 20 h20) (by omega)
  · intro h i hi
    omega

/-! ### Tape lemmas -/

theorem tapeRead_fst (t : Tape) (i : Int) (b : Sym) :
    (tapeRead t i b).1 = tapeAt t b i := by
  unfold tapeRead tapeAt
  cases h : tapeLookup t i <;> simp [h]

theorem tapeLookup_insert (t : Tape) (i : Int) (v : Sym) (x : Int) :
    tapeLookup (tapeInsert t i v) x = if x = i then some v else tapeLookup t x := by
  induction t with
  | nil =>
    unfold tapeInsert tapeLookup
    rfl
  | cons kv rest ih =>
    obtain ⟨k, w⟩ := kv
    unfold tapeInsert
    by_cases h1 : i < k
    · simp only [h1, if_true, tapeLookup]
    · by_cases h2 : i = k
      · subst h2
        simp only [h1, if_false, if_true, reduceIte, tapeLookup]
        by_cases hx : x = i <;> simp [hx]
      · simp only [h1, h2, if_false, tapeLookup, ih]
        by_cases hx : x = i
        · subst hx
          simp [h2]
        · simp [hx]

theorem tapeAt_insert (t : Tape) (b : Sym) (i : Int) (v : Sym) (x : Int) :
    tapeAt (tapeInsert t i v) b x = if x = i then v else tapeAt t b x := by
  unfold tapeAt
  rw [tapeLookup_insert]
  by_cases hx : x = i <;> simp [hx]

theorem tapeAt_read_snd (t : Tape) (i : Int) (b : Sym) (x : Int) :
    tapeAt (tapeRead t i b).2 b x = tapeAt t b x := by
  unfold tapeRead
  cases h : tapeLookup t i with
  | some s => rfl
  | none =>
    simp only
    rw [tapeAt_insert]
    by_cases hx : x = i
    · subst hx
      simp [tapeAt, h]
    · simp [hx]

theorem posInsert_mem (l : List Int) (i x : Int) :
    x ∈ posInsert l i ↔ x = i ∨ x ∈ l := by
  induction l with
  | nil => simp [posInsert]
  | cons k rest ih =>
    unfold posInsert
    by_cases h1 : i < k
    · simp only [h1, if_true, List.mem_cons]
    · by_cases h2 : i = k
      · subst h2
        simp only [h1, if_false, if_true, reduceIte, List.mem_cons]
        tauto
      · simp only [h1, h2, if_false, List.mem_cons, ih]
        tauto

/-! ### Claims about the simulator step -/

/-- Claim C6: single-step semantics.  From an active state with a defined
table entry `(next_state, write, move)` for the symbol under the head, one
`cython_step` writes `write` at the head cell (leaving all other cells'
content unchanged), sets the state to `next_state`, moves the head by
`move`, extends `min_visited`/`max_visited` to include the new head
position, increments `steps_taken` by exactly 1, and returns verdict 1 if
`next_state` is active, 0 if it is the halt state. -/
theorem cython_step_semantics (tbl : TransTable) (tm : TMConfig) (tr : Transition)
    (hact : ¬ tm.current_state = HALT_STATE)
    (hlook : tableLookup tbl
      (tm.current_state, tapeAt tm.tape tm.blank_symbol tm.head_position) = some tr) :
    tapeAt (cython_step tbl tm).1.tape tm.blank_symbol tm.head_position = tr.write ∧
    (∀ x, ¬ x = tm.head_position →
      tapeAt (cython_step tbl tm).1.tape tm.blank_symbol x =
        tapeAt tm.tape tm.blank_symbol x) ∧
    (cython_step tbl tm).1.current_state = tr.nextState ∧
    (cython_step tbl tm).1.head_position = tm.head_position + tr.move ∧
    (cython_step tbl tm).1.min_visited = min tm.min_visited (tm.head_position + tr.move) ∧
    (cython_step tbl tm).1.max_visited = max tm.max_visited (tm.head_position + tr.move) ∧
    (cython_step tbl tm).1.steps_taken = tm.steps_taken + 1 ∧
    (cython_step tbl tm).2 = (if tr.nextState = HALT_STATE then 0 else 1) := by
  have hkey : tableLookup tbl (tm.current_state,
      (tapeRead tm.tape tm.head_position tm.blank_symbol).1) = some tr := by
    rw [tapeRead_fst]
    exact hlook
  have hres : cython_step tbl tm =
      ({ tm with
          tape := tapeInsert (tapeRead tm.tape tm.head_position tm.blank_symbol).2
            tm.head_position tr.write,
          current_state := tr.nextState,
          head_position := tm.head_position + tr.move,
          min_visited := min tm.min_visited (tm.head_position + tr.move),
          max_visited := max tm.max_visited (tm.head_position + tr.move),
          steps_taken := tm.steps_taken + 1 },
        if tr.nextState = HALT_STATE then 0 else 1) := by
    unfold cython_step
    simp only [hact, if_false, hkey]
  rw [hres]
  refine ⟨?_, ?_, rfl, rfl, rfl, rfl, rfl, rfl⟩
  · rw [tapeAt_insert]
    simp
  · intro x hx
    rw [tapeAt_insert]
    simp only [hx, if_false]
    exact tapeAt_read_snd _ _ _ _

/-- Witness for `cython_step_semantics`: the ping-pong machine's first step
from the initial configuration. -/
theorem cython_step_semantics_witness :
    (¬ (initialTM 2 Sym.s0).current_state = HALT_STATE) ∧
      tableLookup pingPongTable
        ((initialTM 2 Sym.s0).current_state,
          tapeAt (initialTM 2 Sym.s0).tape (initialTM 2 Sym.s0).blank_symbol
            (initialTM 2 Sym.s0).head_position) = some ⟨2, Sym.s1, 1⟩ ∧
      ((cython_step pingPongTable (initialTM 2 Sym.s0)).1.current_state = 2 ∧
        (cython_step pingPongTable (initialTM 2 Sym.s0)).1.head_position = 1 ∧
        (cython_step pingPongTable (initialTM 2 Sym.s0)).2 = 1) := by
  have h := cython_step_semantics pingPongTable (initialTM 2 Sym.s0) ⟨2, Sym.s1, 1⟩
    (by decide) (by decide)
  exact ⟨by decide, by decide, h.2.2.1, by rw [h.2.2.2.1]; decide, by rw [h.2.2.2.2.2.2.2]; decide⟩

/-- Claim C8: visited-range invariant.  One `cython_step` preserves
`min_visited ≤ head ≤ max_visited`, and along any number of steps
`min_visited` never increases and `max_visited` never decreases. -/
theorem visited_range_invariant (tbl : TransTable) (tm : TMConfig) (h : VisitedInv tm) :
    VisitedInv (cython_step tbl tm).1 ∧
      ∀ k : Nat, (cythonIter tbl tm k).min_visited ≤ tm.min_visited ∧
        tm.max_visited ≤ (cythonIter tbl tm k).max_visited := by
  have hstep : ∀ tm' : TMConfig,
      (cython_step tbl tm').1.min_visited ≤ tm'.min_visited ∧
        tm'.max_visited ≤ (cython_step tbl tm').1.max_visited := by
    intro tm'
    unfold cython_step
    by_cases hh : tm'.current_state = HALT_STATE
    · simp [hh]
    · simp only [hh, if_false]
      cases tableLookup tbl (tm'.current_state, (tapeRead tm'.tape tm'.head_position tm'.blank_symbol).1) with
      | none => exact ⟨le_refl _, le_refl _⟩
      | some tr => exact ⟨min_le_left _ _, le_max_left _ _⟩
  constructor
  · unfold VisitedInv cython_step
    by_cases hh : tm.current_state = HALT_STATE
    · simp only [hh, if_true, reduceIte]
      exact h
    · simp only [hh, if_false]
      cases tableLookup tbl (tm.current_state, (tapeRead tm.tape tm.head_position tm.blank_symbol).1) with
      | none => exact h
      | some tr => exact ⟨min_le_right _ _, le_max_right _ _⟩
  · intro k
    induction k with
    | zero => exact ⟨le_refl _, le_refl _⟩
    | succ k ih =>
      have hs := hstep (cythonIter tbl tm k)
      exact ⟨le_trans hs.1 ih.1, le_trans ih.2 hs.2⟩

/-- Witness for `visited_range_invariant`: the ping-pong machine's initial
configuration, checked after 4 iterated steps. -/
theorem visited_range_invariant_witness :
    VisitedInv (initialTM 2 Sym.s0) ∧
      (VisitedInv (cython_step pingPongTable (initialTM 2 Sym.s0)).1 ∧
        (cythonIter pingPongTable (initialTM 2 Sym.s0) 4).min_visited ≤
          (initialTM 2 Sym.s0).min_visited ∧
        (initialTM 2 Sym.s0).max_visited ≤
          (cythonIter pingPongTable (initialTM 2 Sym.s0) 4).max_visited) := by
  have h := visited_range_invariant pingPongTable (initialTM 2 Sym.s0) (by decide)
  exact ⟨by decide, h.1, h.2 4⟩

/-- Claim C9: undefined transition treated as halt.  If the table has no
entry for (current state, symbol under the head), `cython_step` sets the
state to the halt state and returns verdict 0, while the tape contents,
head position, `min_visited`, `max_visited` and `steps_taken` are all
unchanged; no lookup error is raised (the embedding is a total function). -/
theorem undefined_transition_halts (tbl : TransTable) (tm : TMConfig)
    (hact : ¬ tm.current_state = HALT_STATE)
    (hmiss : tableLookup tbl
      (tm.current_state, tapeAt tm.tape tm.blank_symbol tm.head_position) = none) :
    (cython_step tbl tm).1.current_state = HALT_STATE ∧
    (cython_step tbl tm).2 = 0 ∧
    (∀ x, tapeAt (cython_step tbl tm).1.tape tm.blank_symbol x =
      tapeAt tm.tape tm.blank_symbol x) ∧
    (cython_step tbl tm).1.head_position = tm.head_position ∧
    (cython_step tbl tm).1.min_visited = tm.min_visited ∧
    (cython_step tbl tm).1.max_visited = tm.max_visited ∧
    (cython_step tbl tm).1.steps_taken = tm.steps_taken := by
  have hkey : tableLookup tbl (tm.current_state,
      (tapeRead tm.tape tm.head_position tm.blank_symbol).1) = none := by
    rw [tapeRead_fst]
    exact hmiss
  have hres : cython_step tbl tm =
      ({ tm with
          tape := (tapeRead tm.tape tm.head_position tm.blank_symbol).2,
          current_state := HALT_STATE }, 0) := by
    unfold cython_step
    simp only [hact, if_false, hkey]
  rw [hres]
  exact ⟨rfl, rfl, fun x => tapeAt_read_snd _ _ _ _, rfl, rfl, rfl, rfl⟩

/-- Witness for `undefined_transition_halts`: a table with a single entry
for `(1,'1')`, queried from the initial blank configuration where the head
reads `'0'`. -/
theorem undefined_transition_halts_witness :
    (¬ (initialTM 1 Sym.s0).current_state = HALT_STATE) ∧
      tableLookup [((1, Sym.s1), ⟨1, Sym.s1, 1⟩)]
        ((initialTM 1 Sym.s0).current_state,
          tapeAt (initialTM 1 Sym.s0).tape (initialTM 1 Sym.s0).blank_symbol
            (initialTM 1 Sym.s0).head_position) = none ∧
      ((cython_step [((1, Sym.s1), ⟨1, Sym.s1, 1⟩)] (initialTM 1 Sym.s0)).1.current_state =
          HALT_STATE ∧
        (cython_step [((1, Sym.s1), ⟨1, Sym.s1, 1⟩)] (initialTM 1 Sym.s0)).2 = 0) := by
  have h := undefined_transition_halts [((1, Sym.s1), ⟨1, Sym.s1, 1⟩)]
    (initialTM 1 Sym.s0) (by decide) (by decide)
  exact ⟨by decide, by decide, h.1, h.2.1⟩

/-! ### Claims about the runtime filters -/

/-- Claim C4: escapee filter behaviour.  With its attributes initialised,
one `check_escapee` query after a step that left the head at `p` updates its
state by: if `tape[p]` is blank and `p` is not in `seen`, increment `run`
and add `p` to `seen`; otherwise reset `run` to 0 and leave `seen`
unchanged.  It returns True if and only if the updated `run` exceeds
`num_states`. -/
theorem check_escapee_behaviour (tm : TMConfig) (es : EscState) :
    ((tapeAt tm.tape tm.blank_symbol tm.head_position = tm.blank_symbol ∧
        ¬ tm.head_position ∈ es.seen_positions) →
      ((check_escapee tm (some es)).2.1.blank_run_count = es.blank_run_count + 1 ∧
        ∀ x, x ∈ (check_escapee tm (some es)).2.1.seen_positions ↔
          (x = tm.head_position ∨ x ∈ es.seen_positions))) ∧
    (¬ (tapeAt tm.tape tm.blank_symbol tm.head_position = tm.blank_symbol ∧
        ¬ tm.head_position ∈ es.seen_positions) →
      ((check_escapee tm (some es)).2.1.blank_run_count = 0 ∧
        (check_escapee tm (some es)).2.1.seen_positions = es.seen_positions)) ∧
    ((check_escapee tm (some es)).2.2 = true ↔
      (check_escapee tm (some es)).2.1.blank_run_count > tm.num_states) := by
  unfold check_escapee
  simp only [tapeRead_fst]
  by_cases hc : tapeAt tm.tape tm.blank_symbol tm.head_position = tm.blank_symbol ∧
      ¬ tm.head_position ∈ es.seen_positions
  · have hb : (decide (tapeAt tm.tape tm.blank_symbol tm.head_position = tm.blank_symbol) &&
        decide (¬ tm.head_position ∈ es.seen_positions)) = true := by
      simp [hc.1, hc.2]
    simp only [hb, if_true, reduceIte]
    refine ⟨fun _ => ⟨by simp, fun x => posInsert_mem _ _ _⟩, fun hn => absurd hc hn, by simp⟩
  · have hb : (decide (tapeAt tm.tape tm.blank_symbol tm.head_position = tm.blank_symbol) &&
        decide (¬ tm.head_position ∈ es.seen_positions)) = false := by
      rcases Decidable.not_and_iff_or_not.1 hc with h | h <;> simp [h]
    simp only [hb, if_false, Bool.false_eq_true, reduceIte]
    refine ⟨fun hy => absurd hy hc, fun _ => ⟨by simp, by simp⟩, by simp⟩

/-- Witness for `check_escapee_behaviour`: the initial filter state
`seen = {1}, run = 0` queried on a machine whose head sits on a fresh blank
cell `2`. -/
theorem check_escapee_behaviour_witness :
    ((check_escapee
        { initialTM 1 Sym.s0 with head_position := 2 }
        (some { seen_positions := [1], blank_run_count := 0 })).2.1.blank_run_count = 1 ∧
      (2 : Int) ∈ (check_escapee
        { initialTM 1 Sym.s0 with head_position := 2 }
        (some { seen_positions := [1], blank_run_count := 0 })).2.1.seen_positions) ∧
    ((check_escapee
        { initialTM 1 Sym.s0 with head_position := 2 }
        (some { seen_positions := [1], blank_run_count := 0 })).2.2 = false) := by
  have h := check_escapee_behaviour
    { initialTM 1 Sym.s0 with head_position := 2 }
    { seen_positions := [1], blank_run_count := 0 }
  have hcond : tapeAt (initialTM 1 Sym.s0).tape Sym.s0 2 = Sym.s0 ∧
      ¬ (2 : Int) ∈ [(1 : Int)] := by decide
  have h1 := h.1 hcond
  exact ⟨⟨h1.1, (h1.2 2).2 (Or.inl rfl)⟩, by decide⟩

/-- Claim C5 amended: `check_cycle_two` keeps a bounded history of at most
the last three configurations `(state, head, snapshot)` where the snapshot
is the set of items of the tape mapping (`frozenset(tape.items())`) — the
cells materialised so far, all within `min_visited..max_visited`, but
possibly missing cells of that range (such as the just-moved-to head cell)
— and after appending the new configuration it returns True iff the history
holds three configurations and the first equals the third. -/
theorem check_cycle_two_amended (tm : TMConfig) (history : List CycleConfig)
    (hlen : history.length ≤ 3) :
    (check_cycle_two tm history).1.length ≤ 3 ∧
    (check_cycle_two tm history).1.getLast? =
      some (tm.current_state, tm.head_position, tm.tape) ∧
    ((check_cycle_two tm history).2 = true ↔
      ((check_cycle_two tm history).1.length = 3 ∧
        (check_cycle_two tm history).1.get? 0 = (check_cycle_two tm history).1.get? 2)) := by
  unfold check_cycle_two
  by_cases h3 : history.length = 3
  · simp only [h3, if_true, reduceIte]
    refine ⟨?_, ?_, ?_⟩
    · simp [h3]
    · simp
    · simp
  · simp only [h3, if_false]
    refine ⟨?_, ?_, ?_⟩
    · simp
      omega
    · simp
    · simp

/-- Claim C5 counterexample: for the ping-pong machine run with only the
period-2 filter, after step 3 the history holds three entries and the
spec-described configurations (snapshot = content of
`min_visited..max_visited`) after steps 1 and 3 are equal — so the claimed
behaviour demands the verdict True — yet `check_cycle_two` returns False,
because its actual snapshots (`frozenset(tape.items())`) differ: the cell
written blank by materialisation is present after step 3 but absent after
step 1. -/
theorem check_cycle_two_snapshot_counterexample :
    (cycleOnlyRun pingPongTable 2 Sym.s0 3).2.2 = false ∧
    (cycleOnlyRun pingPongTable 2 Sym.s0 3).2.1.length = 3 ∧
    specCycleConfig (cycleOnlyRun pingPongTable 2 Sym.s0 1).1 =
      specCycleConfig (cycleOnlyRun pingPongTable 2 Sym.s0 3).1 ∧
    ¬ (cycleOnlyRun pingPongTable 2 Sym.s0 3).2.1.get? 0 =
      (cycleOnlyRun pingPongTable 2 Sym.s0 3).2.1.get? 2 := by decide

/-! ### Pure-step infrastructure for runtime-filter soundness (Claim C2) -/

theorem mstepIter_add (tbl : TransTable) (a b : Nat) (c : MConfig) :
    mstepIter tbl (a + b) c = mstepIter tbl b (mstepIter tbl a c) := by
  induction b with
  | zero => rfl
  | succ b ih =>
    rw [Nat.add_succ]
    show mstep tbl (mstepIter tbl (a + b) c) = mstep tbl (mstepIter tbl b (mstepIter tbl a c))
    exact congrArg (mstep tbl) ih

theorem mstep_halt (tbl : TransTable) (c : MConfig) (h : c.state = HALT_STATE) :
    mstep tbl c = c := by
  unfold mstep
  simp [h]

theorem mrun_succ (tbl : TransTable) (blank : Sym) (k : Nat) :
    mrun tbl blank (k + 1) = mstep tbl (mrun tbl blank k) := rfl

theorem mrun_add (tbl : TransTable) (blank : Sym) (a b : Nat) :
    mrun tbl blank (a + b) = mstepIter tbl b (mrun tbl blank a) :=
  mstepIter_add tbl a b _

theorem mrun_halt_frozen (tbl : TransTable) (blank : Sym) (k : Nat)
    (h : (mrun tbl blank k).state = HALT_STATE) :
    ∀ m, mrun tbl blank (k + m) = mrun tbl blank k := by
  intro m
  induction m with
  | zero => rfl
  | succ m ih =>
    show mrun tbl blank (k + m + 1) = _
    rw [mrun_succ, ih, mstep_halt tbl _ h]

theorem mrun_active_before (tbl : TransTable) (blank : Sym) (t : Nat)
    (h : ¬ (mrun tbl blank t).state = HALT_STATE) (k : Nat) (hk : k ≤ t) :
    ¬ (mrun tbl blank k).state = HALT_STATE := by
  intro h0
  obtain ⟨m, rfl⟩ := Nat.exists_eq_add_of_le hk
  exact h (by rw [mrun_halt_frozen tbl blank k h0 m]; exact h0)

theorem mstep_cases (tbl : TransTable) (c : MConfig) :
    (c.state = HALT_STATE ∧ mstep tbl c = c) ∨
    (¬ c.state = HALT_STATE ∧ tableLookup tbl (c.state, c.tape c.head) = none ∧
      mstep tbl c = { c with state := HALT_STATE }) ∨
    (∃ tr, ¬ c.state = HALT_STATE ∧
      tableLookup tbl (c.state, c.tape c.head) = some tr ∧
      mstep tbl c =
        { state := tr.nextState,
          head := c.head + tr.move,
          tape := fun x => if x = c.head then tr.write else c.tape x }) := by
  by_cases h : c.state = HALT_STATE
  · exact Or.inl ⟨h, mstep_halt tbl c h⟩
  · cases hl : tableLookup tbl (c.state, c.tape c.head) with
    | none =>
      refine Or.inr (Or.inl ⟨h, rfl, ?_⟩)
      unfold mstep
      rw [if_neg h, hl]
    | some tr =>
      refine Or.inr (Or.inr ⟨tr, h, rfl, ?_⟩)
      unfold mstep
      rw [if_neg h, hl]

theorem mstep_tape_other (tbl : TransTable) (c : MConfig) (x : Int)
    (hx : ¬ x = c.head) : (mstep tbl c).tape x = c.tape x := by
  rcases mstep_cases tbl c with ⟨_, he⟩ | ⟨_, _, he⟩ | ⟨tr, _, _, he⟩ <;>
    rw [he] <;> simp [hx]

theorem tableLookup_valid {n : Nat} {tbl : TransTable} (hval : ValidEntries n tbl)
    {key : Nat × Sym} {tr : Transition} (h : tableLookup tbl key = some tr) :
    ValidTransition n tr := by
  induction tbl with
  | nil => simp [tableLookup] at h
  | cons e rest ih =>
    obtain ⟨k, v⟩ := e
    unfold tableLookup at h
    by_cases hk : key = k
    · simp only [hk, if_true, reduceIte, Option.some.injEq] at h
      exact h ▸ hval (k, v) (by simp)
    · simp only [hk, if_false] at h
      exact ih (fun e he => hval e (by simp [he])) h

/-- From an active post-step state, with all table entries valid for `n`:
the pre-step state was active and the step applied a valid active-target
transition, so the new state is in `1..n` and the head moved by exactly one
cell. -/
theorem mstep_active_succ (tbl : TransTable) (n : Nat) (hval : ValidEntries n tbl)
    (c : MConfig) (h : ¬ (mstep tbl c).state = HALT_STATE) :
    ¬ c.state = HALT_STATE ∧ 1 ≤ (mstep tbl c).state ∧ (mstep tbl c).state ≤ n ∧
      ((mstep tbl c).head = c.head + 1 ∨ (mstep tbl c).head = c.head - 1) := by
  rcases mstep_cases tbl c with ⟨h0, he⟩ | ⟨h0, hl, he⟩ | ⟨tr, h0, hl, he⟩
  · rw [he] at h
    exact absurd h0 h
  · rw [he] at h
    exact absurd rfl h
  · have hv := tableLookup_valid hval hl
    rw [he] at h ⊢
    simp only at h ⊢
    have hns : ¬ tr.nextState = HALT_STATE := h
    obtain ⟨hle, hmv⟩ := hv.2 hns
    refine ⟨h0, ?_, hle, ?_⟩
    · simp only [HALT_STATE] at hns
      omega
    · rcases hmv with hm | hm <;> rw [hm] <;> simp [MOVE_L, MOVE_R] <;> omega

/-- With all table entries valid, every step moves the head by at most one
cell. -/
theorem mstep_head_move (tbl : TransTable) (n : Nat) (hval : ValidEntries n tbl)
    (c : MConfig) :
    (mstep tbl c).head = c.head ∨ (mstep tbl c).head = c.head + 1 ∨
      (mstep tbl c).head = c.head - 1 := by
  rcases mstep_cases tbl c with ⟨_, he⟩ | ⟨_, _, he⟩ | ⟨tr, h0, hl, he⟩
  · rw [he]
    exact Or.inl rfl
  · rw [he]
    exact Or.inl rfl
  · have hv := tableLookup_valid hval hl
    rw [he]
    simp only
    by_cases hns : tr.nextState = HALT_STATE
    · rw [hv.1 hns]
      simp [MOVE_N]
    · rcases (hv.2 hns).2 with hm | hm <;> rw [hm] <;> simp [MOVE_L, MOVE_R] <;> omega

/-! ### View bridge: the pure run mirrors the canonical simulator run -/

theorem mview_cython_step (tbl : TransTable) (tm : TMConfig) :
    mview (cython_step tbl tm).1 = mstep tbl (mview tm) := by
  by_cases h : tm.current_state = HALT_STATE
  · have h1 : cython_step tbl tm = (tm, 0) := by
      unfold cython_step
      rw [if_pos h]
    rw [h1, mstep_halt tbl (mview tm) h]
  · cases hl : tableLookup tbl
        (tm.current_state, tapeAt tm.tape tm.blank_symbol tm.head_position) with
    | none =>
      have hkey : tableLookup tbl (tm.current_state,
          (tapeRead tm.tape tm.head_position tm.blank_symbol).1) = none := by
        rw [tapeRead_fst]
        exact hl
      have h1 : cython_step tbl tm =
          ({ tm with
              tape := (tapeRead tm.tape tm.head_position tm.blank_symbol).2,
              current_state := HALT_STATE }, 0) := by
        unfold cython_step
        rw [if_neg h]
        simp only [hkey]
      have h2 : mstep tbl (mview tm) = { mview tm with state := HALT_STATE } := by
        rcases mstep_cases tbl (mview tm) with ⟨h0, _⟩ | ⟨_, _, he⟩ | ⟨tr, _, hlk, _⟩
        · exact absurd h0 h
        · exact he
        · have hsame : tableLookup tbl
              ((mview tm).state, (mview tm).tape (mview tm).head) = none := hl
          rw [hlk] at hsame
          simp at hsame
      rw [h1, h2]
      ext x
      · rfl
      · rfl
      · exact tapeAt_read_snd _ _ _ _
    | some tr =>
      have hkey : tableLookup tbl (tm.current_state,
          (tapeRead tm.tape tm.head_position tm.blank_symbol).1) = some tr := by
        rw [tapeRead_fst]
        exact hl
      have h1 : cython_step tbl tm =
          ({ tm with
              tape := tapeInsert (tapeRead tm.tape tm.head_position tm.blank_symbol).2
                tm.head_position tr.write,
              current_state := tr.nextState,
              head_position := tm.head_position + tr.move,
              min_visited := min tm.min_visited (tm.head_position + tr.move),
              max_visited := max tm.max_visited (tm.head_position + tr.move),
              steps_taken := tm.steps_taken + 1 },
            if tr.nextState = HALT_STATE then 0 else 1) := by
        unfold cython_step
        rw [if_neg h]
        simp only [hkey]
      have h2 : mstep tbl (mview tm) =
          { state := tr.nextState,
            head := tm.head_position + tr.move,
            tape := fun x => if x = tm.head_position then tr.write
              else tapeAt tm.tape tm.blank_symbol x } := by
        rcases mstep_cases tbl (mview tm) with ⟨h0, _⟩ | ⟨_, hlk, _⟩ | ⟨tr', _, hlk, he⟩
        · exact absurd h0 h
        · have hsame : tableLookup tbl
              ((mview tm).state, (mview tm).tape (mview tm).head) = some tr := hl
          rw [hlk] at hsame
          simp at hsame
        · have hsame : tableLookup tbl
              ((mview tm).state, (mview tm).tape (mview tm).head) = some tr := hl
          rw [hlk] at hsame
          simp only [Option.some.injEq] at hsame
          subst hsame
          exact he
      rw [h1, h2]
      ext x
      · rfl
      · rfl
      · show tapeAt (tapeInsert (tapeRead tm.tape tm.head_position tm.blank_symbol).2
            tm.head_position tr.write) tm.blank_symbol x = _
        rw [tapeAt_insert]
        by_cases hx : x = tm.head_position
        · simp [hx]
        · simp only [hx, if_false]
          exact tapeAt_read_snd _ _ _ _

theorem cython_step_params (tbl : TransTable) (tm : TMConfig) :
    (cython_step tbl tm).1.blank_symbol = tm.blank_symbol ∧
      (cython_step tbl tm).1.num_states = tm.num_states := by
  unfold cython_step
  by_cases h : tm.current_state = HALT_STATE
  · simp [h]
  · simp only [h, if_false]
    cases tableLookup tbl
        (tm.current_state, (tapeRead tm.tape tm.head_position tm.blank_symbol).1) with
    | none => exact ⟨rfl, rfl⟩
    | some tr => exact ⟨rfl, rfl⟩

theorem check_escapee_machine (tm : TMConfig) (fs : Option EscState) :
    mview (check_escapee tm fs).1 = mview tm ∧
      (check_escapee tm fs).1.blank_symbol = tm.blank_symbol ∧
      (check_escapee tm fs).1.num_states = tm.num_states := by
  cases fs with
  | none => exact ⟨rfl, rfl, rfl⟩
  | some es =>
    refine ⟨?_, ?_, ?_⟩
    · unfold check_escapee
      ext x
      · rfl
      · rfl
      · exact tapeAt_read_snd _ _ _ _
    · rfl
    · rfl

theorem simRun_params (tbl : TransTable) (n : Nat) (blank : Sym) (k : Nat) :
    (simRun tbl n blank k).tm.blank_symbol = blank ∧
      (simRun tbl n blank k).tm.num_states = n := by
  induction k with
  | zero => exact ⟨rfl, rfl⟩
  | succ k ih =>
    show (simStep tbl (simRun tbl n blank k)).tm.blank_symbol = blank ∧ _
    unfold simStep
    simp only
    have h1 := cython_step_params tbl (simRun tbl n blank k).tm
    have h2 := check_escapee_machine (cython_step tbl (simRun tbl n blank k).tm).1
      (simRun tbl n blank k).esc_state
    exact ⟨h2.2.1.trans (h1.1.trans ih.1), h2.2.2.trans (h1.2.trans ih.2)⟩

theorem simRun_view (tbl : TransTable) (n : Nat) (blank : Sym) (k : Nat) :
    mview (simRun tbl n blank k).tm = mrun tbl blank k := by
  induction k with
  | zero =>
    show mview (initialTM n blank) = _
    unfold mview initialTM mrun mstepIter
    simp only
    ext x
    · rfl
    · rfl
    · rfl
  | succ k ih =>
    show mview (simStep tbl (simRun tbl n blank k)).tm = _
    unfold simStep
    simp only
    rw [(check_escapee_machine _ _).1, mview_cython_step, ih, mrun_succ]

theorem cythonIter_view (tbl : TransTable) (tm : TMConfig) (m : Nat) :
    mview (cythonIter tbl tm m) = mstepIter tbl m (mview tm) := by
  induction m with
  | zero => rfl
  | succ m ih =>
    show mview (cython_step tbl (cythonIter tbl tm m)).1 = _
    rw [mview_cython_step, ih]
    rfl

/-! ### Escapee filter accounting along the canonical run -/

theorem check_escapee_some (tm : TMConfig) (es : EscState) :
    (check_escapee tm (some es)).2.1 =
      (if tapeAt tm.tape tm.blank_symbol tm.head_position = tm.blank_symbol ∧
          ¬ tm.head_position ∈ es.seen_positions then
        { seen_positions := posInsert es.seen_positions tm.head_position,
          blank_run_count := es.blank_run_count + 1 }
      else
        { seen_positions := es.seen_positions, blank_run_count := 0 }) ∧
    (check_escapee tm (some es)).2.2 =
      decide ((check_escapee tm (some es)).2.1.blank_run_count > tm.num_states) := by
  unfold check_escapee
  simp only [tapeRead_fst]
  by_cases hc : tapeAt tm.tape tm.blank_symbol tm.head_position = tm.blank_symbol ∧
      ¬ tm.head_position ∈ es.seen_positions
  · have hb : (decide (tapeAt tm.tape tm.blank_symbol tm.head_position = tm.blank_symbol) &&
        decide (¬ tm.head_position ∈ es.seen_positions)) = true := by
      simp [hc.1, hc.2]
    simp only [hb, if_true, reduceIte, hc]
    exact ⟨by trivial, by trivial⟩
  · have hb : (decide (tapeAt tm.tape tm.blank_symbol tm.head_position = tm.blank_symbol) &&
        decide (¬ tm.head_position ∈ es.seen_positions)) = false := by
      rcases Decidable.not_and_iff_or_not.1 hc with h | h <;> simp [h]
    simp only [hb, Bool.false_eq_true, if_false, reduceIte, hc]
    exact ⟨by trivial, by trivial⟩

theorem simRun_esc_succ (tbl : TransTable) (n : Nat) (blank : Sym) (k : Nat) :
    (simRun tbl n blank (k + 1)).esc_state =
      some (check_escapee (cython_step tbl (simRun tbl n blank k).tm).1
        (simRun tbl n blank k).esc_state).2.1 ∧
    (simRun tbl n blank (k + 1)).esc_verdict =
      (check_escapee (cython_step tbl (simRun tbl n blank k).tm).1
        (simRun tbl n blank k).esc_state).2.2 := ⟨rfl, rfl⟩

/-- The machine object handed to the filters at query `k+1`: its head, tape
content, blank symbol and state count in terms of the pure run. -/
theorem simRun_step_machine (tbl : TransTable) (n : Nat) (blank : Sym) (k : Nat) :
    (cython_step tbl (simRun tbl n blank k).tm).1.head_position =
      (mrun tbl blank (k + 1)).head ∧
    (cython_step tbl (simRun tbl n blank k).tm).1.blank_symbol = blank ∧
    (cython_step tbl (simRun tbl n blank k).tm).1.num_states = n ∧
    (∀ x, tapeAt (cython_step tbl (simRun tbl n blank k).tm).1.tape blank x =
      (mrun tbl blank (k + 1)).tape x) := by
  have hv : mview (cython_step tbl (simRun tbl n blank k).tm).1 = mrun tbl blank (k + 1) := by
    rw [mview_cython_step, simRun_view, mrun_succ]
  have hp := cython_step_params tbl (simRun tbl n blank k).tm
  have hb : (cython_step tbl (simRun tbl n blank k).tm).1.blank_symbol = blank :=
    hp.1.trans (simRun_params tbl n blank k).1
  refine ⟨congrArg MConfig.head hv, hb, hp.2.trans (simRun_params tbl n blank k).2, ?_⟩
  intro x
  have happ : tapeAt (cython_step tbl (simRun tbl n blank k).tm).1.tape
      (cython_step tbl (simRun tbl n blank k).tm).1.blank_symbol x =
      (mrun tbl blank (k + 1)).tape x :=
    congrFun (congrArg MConfig.tape hv) x
  rw [hb] at happ
  exact happ

theorem escSeen_one (tbl : TransTable) (n : Nat) (blank : Sym) :
    escSeen tbl n blank 1 = [(mrun tbl blank 1).head] ∧
      escRun tbl n blank 1 = 0 ∧
      (simRun tbl n blank 1).esc_verdict = false := by
  have hhead := (simRun_step_machine tbl n blank 0).1
  refine ⟨?_, rfl, rfl⟩
  show [(cython_step tbl (simRun tbl n blank 0).tm).1.head_position] = _
  rw [hhead]

/-- The escapee filter's update recurrence at query `k+1`, for `k ≥ 1`. -/
theorem esc_step (tbl : TransTable) (n : Nat) (blank : Sym) (k : Nat) (hk : 1 ≤ k) :
    (EscInc tbl n blank (k + 1) →
      escSeen tbl n blank (k + 1) =
        posInsert (escSeen tbl n blank k) ((mrun tbl blank (k + 1)).head) ∧
      escRun tbl n blank (k + 1) = escRun tbl n blank k + 1) ∧
    (¬ EscInc tbl n blank (k + 1) →
      escSeen tbl n blank (k + 1) = escSeen tbl n blank k ∧
      escRun tbl n blank (k + 1) = 0) ∧
    (simRun tbl n blank (k + 1)).esc_verdict =
      decide (escRun tbl n blank (k + 1) > n) := by
  obtain ⟨j, rfl⟩ := Nat.exists_eq_add_of_le hk
  set m := 1 + j with hm
  have hsome : (simRun tbl n blank m).esc_state =
      some (check_escapee (cython_step tbl (simRun tbl n blank (m - 1)).tm).1
        (simRun tbl n blank (m - 1)).esc_state).2.1 := by
    have : m = (m - 1) + 1 := by omega
    rw [this]
    exact (simRun_esc_succ tbl n blank (m - 1)).1
  set E := (check_escapee (cython_step tbl (simRun tbl n blank (m - 1)).tm).1
    (simRun tbl n blank (m - 1)).esc_state).2.1 with hE
  have hseen : escSeen tbl n blank m = E.seen_positions := by
    unfold escSeen
    rw [hsome]
  have hrun : escRun tbl n blank m = E.blank_run_count := by
    unfold escRun
    rw [hsome]
  set tm1 := (cython_step tbl (simRun tbl n blank m).tm).1 with htm1
  have hmach := simRun_step_machine tbl n blank m
  have hce := check_escapee_some tm1 E
  have hcond : (tapeAt tm1.tape tm1.blank_symbol tm1.head_position = tm1.blank_symbol ∧
      ¬ tm1.head_position ∈ E.seen_positions) ↔ EscInc tbl n blank (m + 1) := by
    unfold EscInc
    have e1 : tapeAt tm1.tape tm1.blank_symbol tm1.head_position =
        (mrun tbl blank (m + 1)).tape ((mrun tbl blank (m + 1)).head) := by
      rw [hmach.2.1]
      rw [hmach.1] at *
      exact hmach.2.2.2 _
    have e2 : tm1.blank_symbol = blank := hmach.2.1
    have e3 : tm1.head_position = (mrun tbl blank (m + 1)).head := hmach.1
    have e4 : escSeen tbl n blank (m + 1 - 1) = E.seen_positions := by
      have : m + 1 - 1 = m := by omega
      rw [this, hseen]
    rw [e1, e2, e3, e4]
  have hstate : (simRun tbl n blank (m + 1)).esc_state =
      some (check_escapee tm1 (some E)).2.1 := by
    have h0 := (simRun_esc_succ tbl n blank m).1
    rw [hsome] at h0
    exact h0
  have hverd : (simRun tbl n blank (m + 1)).esc_verdict =
      (check_escapee tm1 (some E)).2.2 := by
    have h0 := (simRun_esc_succ tbl n blank m).2
    rw [hsome] at h0
    exact h0
  have hseen1 : escSeen tbl n blank (m + 1) = (check_escapee tm1 (some E)).2.1.seen_positions := by
    unfold escSeen
    rw [hstate]
  have hrun1 : escRun tbl n blank (m + 1) = (check_escapee tm1 (some E)).2.1.blank_run_count := by
    unfold escRun
    rw [hstate]
  refine ⟨?_, ?_, ?_⟩
  · intro hinc
    have hc := hcond.2 hinc
    rw [hseen1, hrun1, hce.1, if_pos hc, hseen, hrun, hmach.1]
    exact ⟨rfl, rfl⟩
  · intro hninc
    have hc : ¬ (tapeAt tm1.tape tm1.blank_symbol tm1.head_position = tm1.blank_symbol ∧
        ¬ tm1.head_position ∈ E.seen_positions) := fun hy => hninc (hcond.1 hy)
    rw [hseen1, hrun1, hce.1, if_neg hc, hseen]
    exact ⟨rfl, rfl⟩
  · rw [hverd, hce.2, hrun1, hmach.2.2.1]

theorem escRun_bound (tbl : TransTable) (n : Nat) (blank : Sym) :
    ∀ k, 1 ≤ k → escRun tbl n blank k ≤ k - 1 := by
  intro k
  induction k with
  | zero => omega
  | succ k ih =>
    intro _
    by_cases hk : 1 ≤ k
    · have hs := esc_step tbl n blank k hk
      by_cases hinc : EscInc tbl n blank (k + 1)
      · rw [(hs.1 hinc).2]
        have := ih hk
        omega
      · rw [(hs.2.1 hinc).2]
        omega
    · have hk0 : k = 0 := by omega
      subst hk0
      rw [(escSeen_one tbl n blank).2.1]

/-- If the escapee verdict is true after step `t`, then `t ≥ 2` and the
counter exceeds `n`. -/
theorem esc_fire (tbl : TransTable) (n : Nat) (blank : Sym) (t : Nat)
    (h : (simRun tbl n blank t).esc_verdict = true) :
    2 ≤ t ∧ n < escRun tbl n blank t := by
  match t with
  | 0 => exact absurd h (by simp [simRun, initialSim])
  | 1 => exact absurd h (by rw [(escSeen_one tbl n blank).2.2]; simp)
  | (k + 2) =>
    have hs := esc_step tbl n blank (k + 1) (by omega)
    rw [hs.2.2] at h
    simp only [decide_eq_true_eq] at h
    exact ⟨by omega, h⟩

/-- Every query in the `escRun t`-long suffix ending at `t` incremented the
counter. -/
theorem esc_window (tbl : TransTable) (n : Nat) (blank : Sym) (t : Nat) :
    ∀ e, e < escRun tbl n blank t →
      EscInc tbl n blank (t - e) ∧ escRun tbl n blank (t - e) = escRun tbl n blank t - e := by
  intro e
  induction e with
  | zero =>
    intro h0
    have ht1 : 1 ≤ t := by
      by_contra hc
      have : t = 0 := by omega
      subst this
      have : escRun tbl n blank 0 = 0 := rfl
      omega
    have ht2 : 2 ≤ t := by
      by_contra hc
      have : t = 1 := by omega
      subst this
      rw [(escSeen_one tbl n blank).2.1] at h0
      omega
    obtain ⟨k, rfl⟩ : ∃ k, t = k + 2 := ⟨t - 2, by omega⟩
    simp only [Nat.sub_zero]
    have hs := esc_step tbl n blank (k + 1) (by omega)
    by_cases hinc : EscInc tbl n blank (k + 2)
    · exact ⟨hinc, by trivial⟩
    · rw [(hs.2.1 hinc).2] at h0
      omega
  | succ e ih =>
    intro h0
    have hprev := ih (by omega)
    have hrun : 1 ≤ escRun tbl n blank (t - e) := by omega
    have ht : 2 ≤ t - e := by
      by_contra hc
      interval_cases hte : (t - e)
      · have : escRun tbl n blank 0 = 0 := rfl
        omega
      · rw [(escSeen_one tbl n blank).2.1] at hrun
        omega
    obtain ⟨k, hk⟩ : ∃ k, t - e = k + 2 := ⟨t - e - 2, by omega⟩
    have hs := esc_step tbl n blank (k + 1) (by omega)
    by_cases hinc : EscInc tbl n blank (k + 2)
    · have hrec := (hs.1 hinc).2
      rw [← hk] at hrec
      have he1 : t - (e + 1) = k + 1 := by omega
      rw [he1]
      have : escRun tbl n blank (k + 1) = escRun tbl n blank t - (e + 1) := by omega
      refine ⟨?_, this⟩
      -- EscInc at (k+1) = t - (e+1): from its own positive counter
      have hrun2 : 1 ≤ escRun tbl n blank (k + 1) := by omega
      have hk2 : 2 ≤ k + 1 := by
        by_contra hc
        have : k = 0 := by omega
        subst this
        rw [(escSeen_one tbl n blank).2.1] at hrun2
        omega
      obtain ⟨j, hj⟩ : ∃ j, k + 1 = j + 2 := ⟨k - 1, by omega⟩
      have hs2 := esc_step tbl n blank (j + 1) (by omega)
      by_cases hinc2 : EscInc tbl n blank (j + 2)
      · rw [hj]
        exact hinc2
      · rw [hj] at hrun2
        rw [(hs2.2.1 hinc2).2] at hrun2
        omega
    · rw [hk] at hprev
      exact absurd hprev.1 hinc

theorem escSeen_mono (tbl : TransTable) (n : Nat) (blank : Sym) (a b : Nat)
    (ha : 1 ≤ a) (hab : a ≤ b) (x : Int) (hx : x ∈ escSeen tbl n blank a) :
    x ∈ escSeen tbl n blank b := by
  obtain ⟨m, rfl⟩ := Nat.exists_eq_add_of_le hab
  clear hab
  induction m with
  | zero => exact hx
  | succ m ih =>
    have hs := esc_step tbl n blank (a + m) (by omega)
    show x ∈ escSeen tbl n blank ((a + m) + 1)
    by_cases hinc : EscInc tbl n blank ((a + m) + 1)
    · rw [(hs.1 hinc).1, posInsert_mem]
      exact Or.inr ih
    · rw [((hs.2.1) hinc).1]
      exact ih

theorem escSeen_occupied (tbl : TransTable) (n : Nat) (blank : Sym) :
    ∀ k x, x ∈ escSeen tbl n blank k →
      ∃ a, 1 ≤ a ∧ a ≤ k ∧ (mrun tbl blank a).head = x := by
  intro k
  induction k with
  | zero =>
    intro x hx
    have : escSeen tbl n blank 0 = [] := rfl
    rw [this] at hx
    simp at hx
  | succ k ih =>
    intro x hx
    by_cases hk : 1 ≤ k
    · have hs := esc_step tbl n blank k hk
      by_cases hinc : EscInc tbl n blank (k + 1)
      · rw [(hs.1 hinc).1, posInsert_mem] at hx
        rcases hx with h | h
        · exact ⟨k + 1, by omega, le_refl _, h.symm⟩
        · obtain ⟨a, h1, h2, h3⟩ := ih x h
          exact ⟨a, h1, by omega, h3⟩
      · rw [(hs.2.1 hinc).1] at hx
        obtain ⟨a, h1, h2, h3⟩ := ih x hx
        exact ⟨a, h1, by omega, h3⟩
    · have hk0 : k = 0 := by omega
      subst hk0
      rw [(escSeen_one tbl n blank).1] at hx
      simp at hx
      exact ⟨1, le_refl _, le_refl _, hx.symm⟩

theorem mrun_virgin_blank (tbl : TransTable) (blank : Sym) :
    ∀ k x, (∀ a, a < k → ¬ (mrun tbl blank a).head = x) →
      (mrun tbl blank k).tape x = blank := by
  intro k
  induction k with
  | zero => intro x h; rfl
  | succ k ih =>
    intro x h
    rw [mrun_succ, mstep_tape_other]
    · exact ih x (fun a ha => h a (by omega))
    · intro he
      exact (h k (by omega)) (he ▸ rfl)

/-- Any cell other than the initial head position is in the seen-set from
its first head arrival onward. -/
theorem first_arrival_in_seen (tbl : TransTable) (n : Nat) (blank : Sym) (x : Int)
    (hx0 : ¬ (mrun tbl blank 0).head = x) :
    ∀ a, 1 ≤ a → (mrun tbl blank a).head = x →
      ∀ b, a ≤ b → x ∈ escSeen tbl n blank b := by
  intro a
  induction a using Nat.strong_induction_on with
  | _ a ih =>
    intro ha hax b hab
    by_cases hearlier : ∃ a', 1 ≤ a' ∧ a' < a ∧ (mrun tbl blank a').head = x
    · obtain ⟨a', h1, h2, h3⟩ := hearlier
      exact ih a' h2 h1 h3 b (by omega)
    · push_neg at hearlier
      by_cases ha1 : a = 1
      · subst ha1
        have h1 : x ∈ escSeen tbl n blank 1 := by
          rw [(escSeen_one tbl n blank).1, hax]
          simp
        exact escSeen_mono tbl n blank 1 b (le_refl _) hab x h1
      · have ha2 : 2 ≤ a := by omega
        have hnotseen : ¬ x ∈ escSeen tbl n blank (a - 1) := by
          intro hmem
          obtain ⟨a', h1, h2, h3⟩ := escSeen_occupied tbl n blank (a - 1) x hmem
          exact (hearlier a' h1 (by omega)) h3
        have hblank : (mrun tbl blank a).tape x = blank := by
          apply mrun_virgin_blank
          intro a' ha'
          by_cases h0 : a' = 0
          · subst h0
            exact hx0
          · intro he
            exact (hearlier a' (by omega) ha') he
        have hinc : EscInc tbl n blank a := by
          unfold EscInc
          rw [hax]
          exact ⟨hblank, hnotseen⟩
        obtain ⟨k, rfl⟩ : ∃ k, a = k + 1 := ⟨a - 1, by omega⟩
        have hs := esc_step tbl n blank k (by omega)
        have hmem : x ∈ escSeen tbl n blank (k + 1) := by
          rw [(hs.1 hinc).1, posInsert_mem]
          exact Or.inl hax.symm
        exact escSeen_mono tbl n blank (k + 1) b (by omega) hab x hmem

/-! ### Walk geometry -/

theorem mrun_head_move (tbl : TransTable) (n : Nat) (blank : Sym)
    (hval : ValidEntries n tbl) (k : Nat) :
    (mrun tbl blank (k + 1)).head = (mrun tbl blank k).head ∨
    (mrun tbl blank (k + 1)).head = (mrun tbl blank k).head + 1 ∨
    (mrun tbl blank (k + 1)).head = (mrun tbl blank k).head - 1 := by
  rw [mrun_succ]
  exact mstep_head_move tbl n hval _

/-- Discrete intermediate value theorem for the head walk: every cell
between the head positions at two times is visited at some time in
between. -/
theorem walk_crossing (tbl : TransTable) (n : Nat) (blank : Sym)
    (hval : ValidEntries n tbl) (a : Nat) (c : Int) :
    ∀ b, a ≤ b →
      (((mrun tbl blank a).head ≤ c ∧ c ≤ (mrun tbl blank b).head) ∨
        ((mrun tbl blank b).head ≤ c ∧ c ≤ (mrun tbl blank a).head)) →
      ∃ m, a ≤ m ∧ m ≤ b ∧ (mrun tbl blank m).head = c := by
  intro b
  induction b with
  | zero =>
    intro hab hc
    have ha0 : a = 0 := by omega
    subst ha0
    exact ⟨0, le_refl _, le_refl _, by omega⟩
  | succ b ih =>
    intro hab hc
    by_cases hab' : a = b + 1
    · subst hab'
      exact ⟨b + 1, le_refl _, le_refl _, by omega⟩
    · have hab2 : a ≤ b := by omega
      have hmv := mrun_head_move tbl n blank hval b
      by_cases hcb : ((mrun tbl blank a).head ≤ c ∧ c ≤ (mrun tbl blank b).head) ∨
          ((mrun tbl blank b).head ≤ c ∧ c ≤ (mrun tbl blank a).head)
      · obtain ⟨m, h1, h2, h3⟩ := ih hab2 hcb
        exact ⟨m, h1, by omega, h3⟩
      · refine ⟨b + 1, by omega, le_refl _, ?_⟩
        rcases hmv with h | h | h <;> omega

/-! ### The mirror argument: a state repetition while sweeping into
all-blank territory forces eternal periodicity -/

theorem cShift_mstep (tbl : TransTable) (δ : Int) (c : MConfig) :
    mstep tbl (cShift δ c) = cShift δ (mstep tbl c) := by
  rcases mstep_cases tbl c with ⟨h0, he⟩ | ⟨h0, hl, he⟩ | ⟨tr, h0, hl, he⟩
  · rw [he, mstep_halt]
    exact h0
  · have hl' : tableLookup tbl ((cShift δ c).state,
        (cShift δ c).tape (cShift δ c).head) = none := by
      show tableLookup tbl (c.state, c.tape (c.head + δ - δ)) = none
      rw [add_sub_cancel_right]
      exact hl
    rcases mstep_cases tbl (cShift δ c) with ⟨h0', _⟩ | ⟨_, _, he'⟩ | ⟨tr', _, hl'', _⟩
    · exact absurd h0' h0
    · rw [he', he]
      rfl
    · rw [hl'] at hl''
      simp at hl''
  · have hl' : tableLookup tbl ((cShift δ c).state,
        (cShift δ c).tape (cShift δ c).head) = some tr := by
      show tableLookup tbl (c.state, c.tape (c.head + δ - δ)) = some tr
      rw [add_sub_cancel_right]
      exact hl
    rcases mstep_cases tbl (cShift δ c) with ⟨h0', _⟩ | ⟨_, hl'', _⟩ | ⟨tr', _, hl'', he'⟩
    · exact absurd h0' h0
    · rw [hl'] at hl''
      simp at hl''
    · rw [hl'] at hl''
      simp only [Option.some.injEq] at hl''
      subst hl''
      rw [he', he]
      ext x
      · rfl
      · show c.head + δ + tr.move = c.head + tr.move + δ
        ring
      · show (if x = c.head + δ then tr.write else c.tape (x - δ)) =
          (if x - δ = c.head then tr.write else c.tape (x - δ))
        by_cases hx : x = c.head + δ
        · rw [if_pos hx, if_pos (by omega)]
        · rw [if_neg hx, if_neg (by omega)]

theorem cShift_mstepIter (tbl : TransTable) (δ : Int) :
    ∀ (k : Nat) (c : MConfig),
      mstepIter tbl k (cShift δ c) = cShift δ (mstepIter tbl k c) := by
  intro k
  induction k with
  | zero => intro c; rfl
  | succ k ih =>
    intro c
    show mstep tbl (mstepIter tbl k (cShift δ c)) = _
    rw [ih, cShift_mstep]
    rfl

theorem mstep_agree (tbl : TransTable) (d b : Int) (c c' : MConfig)
    (hag : AgreeFrom d b c c') (hin : 0 ≤ d * (c.head - b)) :
    AgreeFrom d b (mstep tbl c) (mstep tbl c') := by
  obtain ⟨hs, hh, ht⟩ := hag
  have hread : c.tape c.head = c'.tape c'.head := by
    rw [← hh]
    exact ht c.head hin
  have hkey : (c'.state, c'.tape c'.head) = (c.state, c.tape c.head) := by
    rw [← hs, ← hread]
  rcases mstep_cases tbl c with ⟨h0, he⟩ | ⟨h0, hl, he⟩ | ⟨tr, h0, hl, he⟩
  · have h0' : c'.state = HALT_STATE := hs ▸ h0
    rw [he, mstep_halt tbl c' h0']
    exact ⟨hs, hh, ht⟩
  · rcases mstep_cases tbl c' with ⟨h0', _⟩ | ⟨_, _, he'⟩ | ⟨tr', _, hl'', _⟩
    · exact absurd (hs.trans h0') h0
    · rw [he, he']
      exact ⟨by simp [hs], hh, ht⟩
    · rw [hkey, hl] at hl''
      simp at hl''
  · rcases mstep_cases tbl c' with ⟨h0', _⟩ | ⟨_, hl'', _⟩ | ⟨tr', _, hl'', he'⟩
    · exact absurd (hs.trans h0') h0
    · rw [hkey, hl] at hl''
      simp at hl''
    · rw [hkey, hl] at hl''
      simp only [Option.some.injEq] at hl''
      subst hl''
      rw [he, he']
      refine ⟨rfl, by rw [hh], ?_⟩
      intro x hx
      simp only
      by_cases hxc : x = c.head
      · rw [if_pos hxc, if_pos (by rw [← hh]; exact hxc)]
      · rw [if_neg hxc, if_neg (by rw [← hh]; exact hxc)]
        exact ht x hx

theorem mirror_periodicity (tbl : TransTable) (blank : Sym) (c : MConfig)
    (d : Int) (π : Nat) (hd : d = 1 ∨ d = -1) (hπ : 0 < π)
    (hmoves : ∀ m, m < π →
      (mstepIter tbl (m + 1) c).head = (mstepIter tbl m c).head + d)
    (hstate : (mstepIter tbl π c).state = c.state)
    (hblank0 : ∀ x : Int, 0 ≤ d * (x - c.head) → c.tape x = blank)
    (hblankπ : ∀ x : Int, 0 ≤ d * (x - (mstepIter tbl π c).head) →
      (mstepIter tbl π c).tape x = blank) :
    ∀ k, ∃ m, m < π ∧ (mstepIter tbl k c).state = (mstepIter tbl m c).state := by
  have hd2 : d * d = 1 := by rcases hd with h | h <;> rw [h] <;> norm_num
  have hheads : ∀ m, m ≤ π → (mstepIter tbl m c).head = c.head + d * m := by
    intro m
    induction m with
    | zero => intro _; simp [mstepIter]
    | succ m ih =>
      intro hm
      rw [hmoves m (by omega), ih (by omega)]
      push_cast
      ring
  have hπhead : (mstepIter tbl π c).head = c.head + d * π := hheads π (le_refl _)
  have hAG0 : AgreeFrom d (c.head + d * π) (mstepIter tbl π c) (cShift (d * π) c) := by
    refine ⟨hstate, by rw [hπhead]; rfl, ?_⟩
    intro x hx
    have h1 : (mstepIter tbl π c).tape x = blank := by
      apply hblankπ
      rw [hπhead]
      exact hx
    have h2 : (cShift (d * π) c).tape x = blank := by
      show c.tape (x - d * π) = blank
      apply hblank0
      have : d * (x - d * π - c.head) = d * (x - (c.head + d * π)) := by ring
      rw [this]
      exact hx
    rw [h1, h2]
  have hM1 : ∀ k, (∀ m, m < k → 0 ≤ d * ((mstepIter tbl m c).head - c.head)) →
      AgreeFrom d (c.head + d * π)
        (mstepIter tbl k (mstepIter tbl π c)) (mstepIter tbl k (cShift (d * π) c)) := by
    intro k
    induction k with
    | zero => intro _; exact hAG0
    | succ k ih =>
      intro hreg
      have hag := ih (fun m hm => hreg m (by omega))
      show AgreeFrom d (c.head + d * π)
        (mstep tbl (mstepIter tbl k (mstepIter tbl π c)))
        (mstep tbl (mstepIter tbl k (cShift (d * π) c)))
      apply mstep_agree tbl d (c.head + d * π) _ _ hag
      have hhd : (mstepIter tbl k (mstepIter tbl π c)).head =
          (mstepIter tbl k c).head + d * π := by
        rw [hag.2.1, cShift_mstepIter]
        rfl
      rw [hhd]
      have : d * ((mstepIter tbl k c).head + d * π - (c.head + d * π)) =
          d * ((mstepIter tbl k c).head - c.head) := by ring
      rw [this]
      exact hreg k (by omega)
  have hM2 : ∀ k, 0 ≤ d * ((mstepIter tbl k c).head - c.head) := by
    intro k
    induction k using Nat.strong_induction_on with
    | _ k ih =>
      by_cases hk : k ≤ π
      · rw [hheads k hk]
        have : d * (c.head + d * (k : Int) - c.head) = d * d * k := by ring
        rw [this, hd2]
        positivity
      · have hm : k - π < k := by omega
        have hag := hM1 (k - π) (fun m hmm => ih m (by omega))
        have hhd : (mstepIter tbl (k - π) (mstepIter tbl π c)).head =
            (mstepIter tbl (k - π) c).head + d * π := by
          rw [hag.2.1, cShift_mstepIter]
          rfl
        have hk' : mstepIter tbl k c = mstepIter tbl (k - π) (mstepIter tbl π c) := by
          rw [← mstepIter_add]
          congr 1
          omega
        rw [hk', hhd]
        have heq : d * ((mstepIter tbl (k - π) c).head + d * π - c.head) =
            d * ((mstepIter tbl (k - π) c).head - c.head) + d * d * π := by ring
        rw [heq, hd2]
        have := ih (k - π) hm
        have hπ0 : (0 : Int) ≤ π := by positivity
        omega
  have hM3 : ∀ k, (mstepIter tbl (π + k) c).state = (mstepIter tbl k c).state := by
    intro k
    have hag := hM1 k (fun m _ => hM2 m)
    have h1 : (mstepIter tbl k (mstepIter tbl π c)).state =
        (mstepIter tbl k (cShift (d * π) c)).state := hag.1
    rw [cShift_mstepIter] at h1
    rw [mstepIter_add]
    exact h1
  intro k
  induction k using Nat.strong_induction_on with
  | _ k ih =>
    by_cases hk : k < π
    · exact ⟨k, hk, rfl⟩
    · have h1 : mstepIter tbl k c = mstepIter tbl (π + (k - π)) c := by
        congr 1
        omega
      obtain ⟨m, hm, he⟩ := ih (k - π) (by omega)
      exact ⟨m, hm, by rw [h1, hM3 (k - π)]; exact he⟩

/-! ### Period-2 filter soundness -/

theorem simRun_cyc_succ (tbl : TransTable) (n : Nat) (blank : Sym) (k : Nat) :
    (simRun tbl n blank (k + 1)).cyc_history =
      (check_cycle_two (simRun tbl n blank (k + 1)).tm
        (simRun tbl n blank k).cyc_history).1 ∧
    (simRun tbl n blank (k + 1)).cyc_verdict =
      (check_cycle_two (simRun tbl n blank (k + 1)).tm
        (simRun tbl n blank k).cyc_history).2 := ⟨rfl, rfl⟩

theorem simRun_cyc_len (tbl : TransTable) (n : Nat) (blank : Sym) :
    ∀ k, (simRun tbl n blank k).cyc_history.length = min k 3 := by
  intro k
  induction k with
  | zero => rfl
  | succ k ih =>
    rw [(simRun_cyc_succ tbl n blank k).1]
    unfold check_cycle_two
    by_cases h3 : (simRun tbl n blank k).cyc_history.length = 3
    · simp only [h3, if_true, reduceIte]
      simp only [List.length_append, List.length_drop, h3, List.length_singleton]
      omega
    · simp only [h3, if_false]
      simp only [List.length_append, List.length_singleton, ih]
      omega

theorem simRun_cyc_shape (tbl : TransTable) (n : Nat) (blank : Sym) :
    ∀ k, (simRun tbl n blank (k + 3)).cyc_history =
      [cycSnap tbl n blank (k + 1), cycSnap tbl n blank (k + 2),
        cycSnap tbl n blank (k + 3)] := by
  have h1 : (simRun tbl n blank 1).cyc_history = [cycSnap tbl n blank 1] := by
    rw [(simRun_cyc_succ tbl n blank 0).1]
    rfl
  have h2 : (simRun tbl n blank 2).cyc_history =
      [cycSnap tbl n blank 1, cycSnap tbl n blank 2] := by
    rw [(simRun_cyc_succ tbl n blank 1).1]
    unfold check_cycle_two
    rw [h1]
    rfl
  intro k
  induction k with
  | zero =>
    rw [(simRun_cyc_succ tbl n blank 2).1]
    unfold check_cycle_two
    rw [h2]
    rfl
  | succ k ih =>
    rw [(simRun_cyc_succ tbl n blank (k + 3)).1]
    unfold check_cycle_two
    rw [ih]
    rfl

/-- If the period-2 filter fires after step `t` of the canonical run with
the machine not halted, the pure run never reaches the halt state. -/
theorem cyc_soundness (tbl : TransTable) (n : Nat) (blank : Sym) (t : Nat)
    (hfire : (simRun tbl n blank t).cyc_verdict = true)
    (hactive : ¬ (mrun tbl blank t).state = HALT_STATE) :
    ∀ m, ¬ (mrun tbl blank m).state = HALT_STATE := by
  match t, hfire, hactive with
  | 0, hfire, _ => exact absurd hfire (by simp [simRun, initialSim])
  | (u + 1), hfire, hactive =>
    have hv : (simRun tbl n blank (u + 1)).cyc_verdict =
        decide ((simRun tbl n blank (u + 1)).cyc_history.length = 3 ∧
          (simRun tbl n blank (u + 1)).cyc_history.get? 0 =
            (simRun tbl n blank (u + 1)).cyc_history.get? 2) := rfl
    rw [hv] at hfire
    simp only [decide_eq_true_eq] at hfire
    obtain ⟨hlen, heq⟩ := hfire
    -- a history of length 3 needs at least 3 steps
    have hlen3 : (u + 1) ≥ 3 := by
      have hl := simRun_cyc_len tbl n blank (u + 1)
      omega
    obtain ⟨k, hk⟩ : ∃ k, u + 1 = k + 3 := ⟨u - 2, by omega⟩
    -- identify the compared history entries
    have hhist := simRun_cyc_shape tbl n blank k
    have hfirst_third : cycSnap tbl n blank (k + 1) = cycSnap tbl n blank (k + 3) := by
      rw [hk, hhist] at heq
      simp only [List.get?] at heq
      exact Option.some.inj heq
    -- equal snapshots give equal pure configurations
    have hview : mrun tbl blank (k + 1) = mrun tbl blank (k + 3) := by
      unfold cycSnap at hfirst_third
      have hs : (simRun tbl n blank (k + 1)).tm.current_state =
          (simRun tbl n blank (k + 3)).tm.current_state :=
        congrArg (fun p : CycleConfig => p.1) hfirst_third
      have hh : (simRun tbl n blank (k + 1)).tm.head_position =
          (simRun tbl n blank (k + 3)).tm.head_position :=
        congrArg (fun p : CycleConfig => p.2.1) hfirst_third
      have htp : (simRun tbl n blank (k + 1)).tm.tape =
          (simRun tbl n blank (k + 3)).tm.tape :=
        congrArg (fun p : CycleConfig => p.2.2) hfirst_third
      have hb1 := (simRun_params tbl n blank (k + 1)).1
      have hb3 := (simRun_params tbl n blank (k + 3)).1
      have hmv : mview (simRun tbl n blank (k + 1)).tm =
          mview (simRun tbl n blank (k + 3)).tm := by
        unfold mview
        rw [hs, hh, htp, hb1, hb3]
      rw [← simRun_view tbl n blank (k + 1), ← simRun_view tbl n blank (k + 3)]
      exact hmv
    -- периod-2 recurrence of the pure run
    have hperiod : ∀ m, mrun tbl blank (k + 1 + m) = mrun tbl blank (k + 3 + m) := by
      intro m
      have h1 : mrun tbl blank (k + 1 + m) = mstepIter tbl m (mrun tbl blank (k + 1)) :=
        mrun_add tbl blank (k + 1) m
      have h3 : mrun tbl blank (k + 3 + m) = mstepIter tbl m (mrun tbl blank (k + 3)) :=
        mrun_add tbl blank (k + 3) m
      rw [h1, h3, hview]
    -- never halts
    have hub : ∀ m, m ≤ u + 1 → ¬ (mrun tbl blank m).state = HALT_STATE :=
      fun m hm => mrun_active_before tbl blank (u + 1) hactive m hm
    intro m
    induction m using Nat.strong_induction_on with
    | _ m ih =>
      by_cases hm : m ≤ u + 1
      · exact hub m hm
      · have hm3 : k + 3 + (m - (k + 3)) = m := by omega
        have := hperiod (m - (k + 3))
        rw [hm3] at this
        rw [← this]
        have hlt : k + 1 + (m - (k + 3)) < m := by omega
        exact ih _ hlt

/-! ### Escapee soundness: window facts plus the mirror -/

theorem mrun_moved_active (tbl : TransTable) (n : Nat) (blank : Sym)
    (hval : ValidEntries n tbl) (k : Nat)
    (hmv : ¬ (mrun tbl blank (k + 1)).head = (mrun tbl blank k).head) :
    ¬ (mrun tbl blank (k + 1)).state = HALT_STATE := by
  intro h0
  rcases mstep_cases tbl (mrun tbl blank k) with ⟨_, he⟩ | ⟨_, _, he⟩ | ⟨tr, _, hl, he⟩
  · apply hmv
    rw [mrun_succ, he]
  · apply hmv
    rw [mrun_succ, he]
  · have hv := tableLookup_valid hval hl
    have hstate : (mrun tbl blank (k + 1)).state = tr.nextState := by
      rw [mrun_succ, he]
    have hmove : tr.move = MOVE_N := hv.1 (by rw [← hstate]; exact h0)
    apply hmv
    rw [mrun_succ, he]
    show (mrun tbl blank k).head + tr.move = (mrun tbl blank k).head
    rw [hmove]
    simp [MOVE_N]

theorem mrun_state_range (tbl : TransTable) (n : Nat) (blank : Sym)
    (hval : ValidEntries n tbl) (hn : 1 ≤ n) (k : Nat)
    (hact : ¬ (mrun tbl blank k).state = HALT_STATE) :
    1 ≤ (mrun tbl blank k).state ∧ (mrun tbl blank k).state ≤ n := by
  cases k with
  | zero => exact ⟨le_refl 1, hn⟩
  | succ k =>
    have h := mstep_active_succ tbl n hval (mrun tbl blank k)
      (by rw [← mrun_succ]; exact hact)
    exact ⟨by rw [mrun_succ]; exact h.2.1, by rw [mrun_succ]; exact h.2.2.1⟩

theorem mrun_step_pm (tbl : TransTable) (n : Nat) (blank : Sym)
    (hval : ValidEntries n tbl) (k : Nat)
    (hact : ¬ (mrun tbl blank (k + 1)).state = HALT_STATE) :
    (mrun tbl blank (k + 1)).head = (mrun tbl blank k).head + 1 ∨
    (mrun tbl blank (k + 1)).head = (mrun tbl blank k).head - 1 := by
  have h := mstep_active_succ tbl n hval (mrun tbl blank k)
    (by rw [← mrun_succ]; exact hact)
  rw [mrun_succ]
  exact h.2.2.2

/-- The window mirror: a sweep of `n+1` pairwise-distinct blank cells in a
constant direction, with everything at or beyond the sweep's far end
unvisited, forces the machine to run for ever. -/
theorem esc_mirror_assemble (tbl : TransTable) (n : Nat) (blank : Sym)
    (hval : ValidEntries n tbl) (hn : 1 ≤ n) (i0 : Nat) (d : Int)
    (hd : d = 1 ∨ d = -1)
    (hdir : ∀ m, m < n → (mrun tbl blank (i0 + m + 1)).head =
      (mrun tbl blank (i0 + m)).head + d)
    (hdist : ∀ m1 m2, m1 < m2 → m2 ≤ n →
      ¬ (mrun tbl blank (i0 + m1)).head = (mrun tbl blank (i0 + m2)).head)
    (hblank : ∀ m, m ≤ n →
      (mrun tbl blank (i0 + m)).tape ((mrun tbl blank (i0 + m)).head) = blank)
    (hext : ∀ k, k ≤ i0 + n →
      d * ((mrun tbl blank k).head - (mrun tbl blank (i0 + n)).head) ≤ 0)
    (hactive : ∀ k, k ≤ i0 + n → ¬ (mrun tbl blank k).state = HALT_STATE) :
    ∀ m, ¬ (mrun tbl blank m).state = HALT_STATE := by
  have hd2 : d * d = 1 := by rcases hd with h | h <;> rw [h] <;> norm_num
  have hwpos : ∀ m, m ≤ n → (mrun tbl blank (i0 + m)).head =
      (mrun tbl blank i0).head + d * m := by
    intro m
    induction m with
    | zero => intro _; simp
    | succ m ih =>
      intro hm
      have h1 := ih (by omega)
      have h2 := hdir m (by omega)
      show (mrun tbl blank (i0 + m + 1)).head =
        (mrun tbl blank i0).head + d * ((m : Int) + 1)
      rw [h2, h1]
      ring
  -- pigeonhole: two equal states in the window
  have hrange : ∀ m, m ≤ n → 1 ≤ (mrun tbl blank (i0 + m)).state ∧
      (mrun tbl blank (i0 + m)).state ≤ n :=
    fun m hm => mrun_state_range tbl n blank hval hn _ (hactive _ (by omega))
  have hpigeon : ∃ m1 m2, m1 < m2 ∧ m2 ≤ n ∧
      (mrun tbl blank (i0 + m1)).state = (mrun tbl blank (i0 + m2)).state := by
    have hmaps : ∀ m ∈ Finset.range (n + 1),
        (mrun tbl blank (i0 + m)).state ∈ Finset.Icc 1 n := by
      intro m hm
      simp only [Finset.mem_range] at hm
      have h := hrange m (by omega)
      simp only [Finset.mem_Icc]
      exact h
    have hcard : (Finset.Icc 1 n).card < (Finset.range (n + 1)).card := by
      rw [Nat.card_Icc, Finset.card_range]
      omega
    obtain ⟨a, ha, b, hb, hab, he⟩ :=
      Finset.exists_ne_map_eq_of_card_lt_of_maps_to hcard hmaps
    simp only [Finset.mem_range] at ha hb
    rcases Nat.lt_or_ge a b with h | h
    · exact ⟨a, b, h, by omega, he⟩
    · exact ⟨b, a, by omega, by omega, he.symm⟩
  obtain ⟨m1, m2, h12, h2n, hsame⟩ := hpigeon
  -- the window cells stay blank back to any earlier window time
  have hchain : ∀ mj, mj ≤ n → ∀ u, u ≤ mj →
      (mrun tbl blank (i0 + mj - u)).tape ((mrun tbl blank (i0 + mj)).head) = blank := by
    intro mj hmj u
    induction u with
    | zero =>
      intro _
      rw [show i0 + mj - 0 = i0 + mj by omega]
      exact hblank mj hmj
    | succ u ih =>
      intro hu
      have hprev := ih (by omega)
      have hne : ¬ ((mrun tbl blank (i0 + mj)).head =
          (mrun tbl blank (i0 + (mj - u - 1))).head) :=
        fun he => (hdist (mj - u - 1) mj (by omega) hmj) he.symm
      have hstep : (mrun tbl blank (i0 + mj - u)).tape ((mrun tbl blank (i0 + mj)).head) =
          (mrun tbl blank (i0 + mj - u - 1)).tape ((mrun tbl blank (i0 + mj)).head) := by
        rw [show i0 + mj - u = (i0 + mj - u - 1) + 1 by omega, mrun_succ]
        apply mstep_tape_other
        rw [show i0 + mj - u - 1 = i0 + (mj - u - 1) by omega]
        exact hne
      rw [show i0 + mj - (u + 1) = i0 + mj - u - 1 by omega, ← hstep]
      exact hprev
  -- region blankness at any window time
  have hregion : ∀ mi, mi ≤ n → ∀ x : Int,
      0 ≤ d * (x - (mrun tbl blank (i0 + mi)).head) →
      (mrun tbl blank (i0 + mi)).tape x = blank := by
    intro mi hmi x hx
    by_cases hbey : 0 < d * (x - (mrun tbl blank (i0 + n)).head)
    · apply mrun_virgin_blank
      intro a ha he
      have hexta := hext a (by omega)
      rw [he] at hexta
      omega
    · push_neg at hbey
      have hwi := hwpos mi hmi
      have hwn := hwpos n (le_refl _)
      -- x is exactly the window cell mi + e for e := d * (x − p (i0+mi))
      have he_nat : ∃ e : Nat, (e : Int) = d * (x - (mrun tbl blank (i0 + mi)).head) ∧
          mi + e ≤ n := by
        have h1 : 0 ≤ d * (x - (mrun tbl blank (i0 + mi)).head) := hx
        have h2 : d * (x - (mrun tbl blank (i0 + mi)).head) + mi ≤ n := by
          have e1 : d * (x - (mrun tbl blank (i0 + n)).head) =
              d * (x - (mrun tbl blank (i0 + mi)).head) + mi - n := by
            rw [hwi, hwn]
            have : d * (x - ((mrun tbl blank i0).head + d * (n : Int))) =
                d * (x - (mrun tbl blank i0).head) - d * d * n := by ring
            rw [this, hd2]
            have : d * (x - ((mrun tbl blank i0).head + d * (mi : Int))) =
                d * (x - (mrun tbl blank i0).head) - d * d * mi := by ring
            rw [this, hd2]
            ring
          omega
        exact ⟨(d * (x - (mrun tbl blank (i0 + mi)).head)).toNat, by omega, by omega⟩
      obtain ⟨e, he1, he2⟩ := he_nat
      have hxe : x = (mrun tbl blank (i0 + (mi + e))).head := by
        have h3 := hwpos (mi + e) he2
        rw [h3, hwi] at *
        -- d * (x - (p i0 + d * mi)) = e  ⇒  x = p i0 + d * (mi + e)
        rcases hd with h | h <;> rw [h] at he1 ⊢ <;> push_cast at * <;> omega
      rw [hxe]
      have := hchain (mi + e) he2 e (by omega)
      rwa [show i0 + (mi + e) - e = i0 + mi by omega] at this
  -- apply the mirror at the repeated state
  have hiter : ∀ k, mstepIter tbl k (mrun tbl blank (i0 + m1)) =
      mrun tbl blank (i0 + m1 + k) :=
    fun k => (mrun_add tbl blank (i0 + m1) k).symm
  have hper := mirror_periodicity tbl blank (mrun tbl blank (i0 + m1)) d (m2 - m1)
    hd (by omega) ?_ ?_ ?_ ?_
  · -- conclude: no halt ever
    intro m
    by_cases hm : m ≤ i0 + n
    · exact hactive m hm
    · have hk : m = i0 + m1 + (m - (i0 + m1)) := by omega
      obtain ⟨mm, hmm, he⟩ := hper (m - (i0 + m1))
      rw [hiter, hiter] at he
      rw [hk, he]
      exact hactive (i0 + m1 + mm) (by omega)
  · -- hmoves
    intro m hm
    rw [hiter, hiter]
    have h := hdir (m1 + m) (by omega)
    rw [show i0 + (m1 + m) + 1 = i0 + m1 + (m + 1) by omega,
      show i0 + (m1 + m) = i0 + m1 + m by omega] at h
    exact h
  · -- hstate
    rw [hiter]
    rw [show i0 + m1 + (m2 - m1) = i0 + m2 by omega]
    exact hsame.symm
  · -- blank region at the sweep start
    exact hregion m1 (by omega)
  · -- blank region at the repeated state's time
    rw [hiter, show i0 + m1 + (m2 - m1) = i0 + m2 by omega]
    exact hregion m2 h2n

/-- Soundness of the escapee filter on the canonical run: if it fires at
step `t` of a valid `n`-state machine, the machine never halts. -/
theorem esc_soundness (tbl : TransTable) (n : Nat) (blank : Sym)
    (hval : ValidEntries n tbl) (hn : 1 ≤ n) (t : Nat)
    (hfire : (simRun tbl n blank t).esc_verdict = true) :
    ∀ m, ¬ (mrun tbl blank m).state = HALT_STATE := by
  obtain ⟨ht2, hcount⟩ := esc_fire tbl n blank t hfire
  have hbound := escRun_bound tbl n blank t (by omega)
  obtain ⟨i0, rfl⟩ : ∃ i0, t = i0 + n := ⟨t - n, by omega⟩
  have hi02 : 2 ≤ i0 := by omega
  -- the last n+1 queries all incremented the blank-run counter
  have hwin : ∀ m, m ≤ n → EscInc tbl n blank (i0 + m) := by
    intro m hm
    have h := (esc_window tbl n blank (i0 + n) (n - m) (by omega)).1
    rwa [show i0 + n - (n - m) = i0 + m by omega] at h
  have hmem : ∀ m, m ≤ n →
      (mrun tbl blank (i0 + m)).head ∈ escSeen tbl n blank (i0 + m) := by
    intro m hm
    obtain ⟨k, hk⟩ : ∃ k, i0 + m = k + 1 := ⟨i0 + m - 1, by omega⟩
    have hs := esc_step tbl n blank k (by omega)
    have hinc := hwin m hm
    rw [hk] at hinc ⊢
    rw [(hs.1 hinc).1]
    exact (posInsert_mem _ _ _).2 (Or.inl rfl)
  -- the window cells are pairwise distinct
  have hdist : ∀ m1 m2, m1 < m2 → m2 ≤ n →
      ¬ (mrun tbl blank (i0 + m1)).head = (mrun tbl blank (i0 + m2)).head := by
    intro m1 m2 h12 h2n heq
    have hinc2 := hwin m2 h2n
    have hmem1 := hmem m1 (by omega)
    have hmono := escSeen_mono tbl n blank (i0 + m1) (i0 + m2 - 1)
      (by omega) (by omega) _ hmem1
    rw [heq] at hmono
    exact hinc2.2 hmono
  -- the machine is still active at the end of the window, hence throughout
  have hact_t : ¬ (mrun tbl blank (i0 + n)).state = HALT_STATE := by
    obtain ⟨k, hk⟩ : ∃ k, i0 + n = k + 1 := ⟨i0 + n - 1, by omega⟩
    rw [hk]
    apply mrun_moved_active tbl n blank hval k
    intro he
    apply hdist (n - 1) n (by omega) (le_refl n)
    rw [show i0 + (n - 1) = k by omega, hk]
    exact he.symm
  have hactive : ∀ k, k ≤ i0 + n → ¬ (mrun tbl blank k).state = HALT_STATE :=
    fun k hk => mrun_active_before tbl blank (i0 + n) hact_t k hk
  have hpm : ∀ k, k < i0 + n →
      (mrun tbl blank (k + 1)).head = (mrun tbl blank k).head + 1 ∨
      (mrun tbl blank (k + 1)).head = (mrun tbl blank k).head - 1 :=
    fun k hk => mrun_step_pm tbl n blank hval k (hactive (k + 1) (by omega))
  by_cases hn1 : n = 1
  · -- a 1-state machine that survives its first step mirrors from time 0
    subst hn1
    have hs1 : ¬ (mrun tbl blank 1).state = HALT_STATE := hactive 1 (by omega)
    have hs1r := mrun_state_range tbl 1 blank hval (le_refl 1) 1 hs1
    have h00 : (mrun tbl blank 0).state = 1 := rfl
    have hstate1 : (mrun tbl blank 1).state = (mrun tbl blank 0).state := by omega
    have hmv := hpm 0 (by omega)
    simp only [Nat.zero_add] at hmv
    set d0 : Int := (mrun tbl blank 1).head - (mrun tbl blank 0).head with hd0_def
    have hd0 : d0 = 1 ∨ d0 = -1 := by
      rcases hmv with h | h <;> [left; right] <;> omega
    have hper := mirror_periodicity tbl blank (mrun tbl blank 0) d0 1 hd0
      (by omega) ?_ ?_ ?_ ?_
    · intro m h0
      obtain ⟨mm, hmm, he⟩ := hper m
      have hmm0 : mm = 0 := by omega
      subst hmm0
      have he' : (mrun tbl blank m).state = (mrun tbl blank 0).state := he
      rw [h0] at he'
      rw [h00] at he'
      exact absurd he'.symm (by simp [HALT_STATE])
    · intro m hm
      have hm0 : m = 0 := by omega
      subst hm0
      show (mrun tbl blank 1).head = (mrun tbl blank 0).head + d0
      omega
    · show (mrun tbl blank 1).state = (mrun tbl blank 0).state
      exact hstate1
    · intro x _
      rfl
    · intro x hx
      have hx' : (0 : Int) ≤ d0 * (x - (mrun tbl blank 1).head) := hx
      show (mrun tbl blank 1).tape x = blank
      have hxne : ¬ x = (mrun tbl blank 0).head := by
        intro he
        rw [he] at hx'
        rcases hd0 with h | h <;> rw [h] at hx' hd0_def <;> omega
      rw [mrun_succ, mstep_tape_other tbl (mrun tbl blank 0) x hxne]
      rfl
  · -- n ≥ 2: a constant-direction sweep through the window
    have hn2 : 2 ≤ n := by omega
    set d : Int := (mrun tbl blank (i0 + 1)).head - (mrun tbl blank i0).head
      with hd_def
    have hpm0 := hpm i0 (by omega)
    have hd : d = 1 ∨ d = -1 := by
      rcases hpm0 with h | h <;> [left; right] <;> omega
    have hdir : ∀ m, m < n → (mrun tbl blank (i0 + m + 1)).head =
        (mrun tbl blank (i0 + m)).head + d := by
      intro m
      induction m with
      | zero =>
        intro _
        show (mrun tbl blank (i0 + 1)).head = (mrun tbl blank i0).head + d
        omega
      | succ m ih =>
        intro hm
        have hprev := ih (by omega)
        have hstep := hpm (i0 + m + 1) (by omega)
        have hne := hdist m (m + 2) (by omega) (by omega)
        rw [show i0 + (m + 2) = i0 + m + 1 + 1 by omega] at hne
        show (mrun tbl blank (i0 + m + 1 + 1)).head =
          (mrun tbl blank (i0 + m + 1)).head + d
        rcases hd with h1 | h1 <;> rcases hstep with h2 | h2 <;> omega
    have hwpos : ∀ m, m ≤ n → (mrun tbl blank (i0 + m)).head =
        (mrun tbl blank i0).head + d * m := by
      intro m
      induction m with
      | zero => intro _; simp
      | succ m ih =>
        intro hm
        have h1 := ih (by omega)
        have h2 := hdir m (by omega)
        show (mrun tbl blank (i0 + m + 1)).head =
          (mrun tbl blank i0).head + d * ((m : Int) + 1)
        rw [h2, h1]
        ring
    by_cases hext : ∀ k, k ≤ i0 + n →
        d * ((mrun tbl blank k).head - (mrun tbl blank (i0 + n)).head) ≤ 0
    · exact esc_mirror_assemble tbl n blank hval hn i0 d hd hdir hdist
        (fun m hm => (hwin m hm).1) hext hactive
    · -- a visit beyond the far end of the sweep is impossible
      exfalso
      push_neg at hext
      obtain ⟨k, hkle, hbeyond⟩ := hext
      have hkw : k < i0 := by
        by_contra hc
        push_neg at hc
        obtain ⟨m, rfl⟩ := Nat.exists_eq_add_of_le hc
        have hwm := hwpos m (by omega)
        have hwn := hwpos n (le_refl n)
        rcases hd with h | h <;> rw [h] at hwm hwn hbeyond <;> omega
      have hcross : ∀ m2, 1 ≤ m2 → m2 ≤ n →
          (mrun tbl blank (i0 + m2)).head = (mrun tbl blank 0).head := by
        intro m2 hm21 hm2n
        have hbet : ((mrun tbl blank k).head ≤ (mrun tbl blank (i0 + m2)).head ∧
              (mrun tbl blank (i0 + m2)).head ≤ (mrun tbl blank i0).head) ∨
            ((mrun tbl blank i0).head ≤ (mrun tbl blank (i0 + m2)).head ∧
              (mrun tbl blank (i0 + m2)).head ≤ (mrun tbl blank k).head) := by
          have hw2 := hwpos m2 hm2n
          have hwn := hwpos n (le_refl n)
          rcases hd with h | h <;> rw [h] at hw2 hwn hbeyond <;> omega
        obtain ⟨mm, hmm1, hmm2, hmm3⟩ := walk_crossing tbl n blank hval k
          ((mrun tbl blank (i0 + m2)).head) i0 (by omega) hbet
        by_cases hp0 : (mrun tbl blank (i0 + m2)).head = (mrun tbl blank 0).head
        · exact hp0
        · exfalso
          have hmm1' : 1 ≤ mm := by
            rcases Nat.eq_zero_or_pos mm with h0 | h0
            · exfalso
              apply hp0
              rw [← hmm3, h0]
            · exact h0
          have hseen := first_arrival_in_seen tbl n blank
            ((mrun tbl blank (i0 + m2)).head) (fun he => hp0 he.symm)
            mm hmm1' hmm3 (i0 + m2 - 1) (by omega)
          exact (hwin m2 hm2n).2 hseen
      have h1 := hcross (n - 1) (by omega) (by omega)
      have h2 := hcross n (by omega) (le_refl n)
      exact hdist (n - 1) n (by omega) (le_refl n) (by rw [h1, h2])

/-- Claim C2 (amended): runtime-filter soundness holds for valid tables at
non-halted firing configurations.  For every `n ≥ 1`, every transition
table all of whose entries are valid for `n` states, and every step count
`t` of the canonical blank-tape driver run (with both filters' accumulated
state), if `check_escapee` or `check_cycle_two` returns `True` at step `t`
and the configuration reached at step `t` is not already halted, then no
number of further `cython_step` applications from that configuration ever
brings the machine into the halt state. -/
theorem runtime_filter_soundness (tbl : TransTable) (n : Nat) (blank : Sym)
    (hval : ValidEntries n tbl) (hn : 1 ≤ n) (t : Nat)
    (hfire : (simRun tbl n blank t).esc_verdict = true ∨
      (simRun tbl n blank t).cyc_verdict = true)
    (hrun : ¬ (simRun tbl n blank t).tm.current_state = HALT_STATE) :
    ∀ m, ¬ (cythonIter tbl (simRun tbl n blank t).tm m).current_state =
      HALT_STATE := by
  have hview : ∀ m, (cythonIter tbl (simRun tbl n blank t).tm m).current_state =
      (mrun tbl blank (t + m)).state := by
    intro m
    have h1 := cythonIter_view tbl (simRun tbl n blank t).tm m
    have h2 := simRun_view tbl n blank t
    have h3 := mrun_add tbl blank t m
    calc (cythonIter tbl (simRun tbl n blank t).tm m).current_state
        = (mview (cythonIter tbl (simRun tbl n blank t).tm m)).state := rfl
      _ = (mstepIter tbl m (mview (simRun tbl n blank t).tm)).state := by rw [h1]
      _ = (mstepIter tbl m (mrun tbl blank t)).state := by rw [h2]
      _ = (mrun tbl blank (t + m)).state := by rw [← h3]
  have hactive : ¬ (mrun tbl blank t).state = HALT_STATE := by
    intro h0
    apply hrun
    have h2 := simRun_view tbl n blank t
    show (mview (simRun tbl n blank t).tm).state = HALT_STATE
    rw [h2]
    exact h0
  have hall : ∀ m, ¬ (mrun tbl blank m).state = HALT_STATE := by
    rcases hfire with hesc | hcyc
    · exact esc_soundness tbl n blank hval hn t hesc
    · exact cyc_soundness tbl n blank t hcyc hactive
  intro m h0
  rw [hview m] at h0
  exact hall (t + m) h0

/-- Claim C2 as stated is false on two counts.  First, `check_cycle_two`
returns `True` on a machine that has already halted (a halted configuration
repeats identically, so the three-entry history degenerates), and a halted
machine trivially fails "never halts" zero steps later.  Second,
`check_escapee` returns `True` at a not-yet-halted configuration of a table
whose transitions enter states above `num_states` (nothing validates the
table against `num_states`), and that machine halts one step later. -/
theorem runtime_filter_counterexample :
    ((simRun haltImmediatelyTable 1 Sym.s0 3).cyc_verdict = true ∧
      (cythonIter haltImmediatelyTable
        (simRun haltImmediatelyTable 1 Sym.s0 3).tm 0).current_state =
        HALT_STATE) ∧
    ((simRun overStateTable 1 Sym.s0 3).esc_verdict = true ∧
      ¬ (simRun overStateTable 1 Sym.s0 3).tm.current_state = HALT_STATE ∧
      (cythonIter overStateTable
        (simRun overStateTable 1 Sym.s0 3).tm 1).current_state =
        HALT_STATE) := by decide

/-- Witness for `runtime_filter_soundness`: the valid one-state machine that
walks right for ever; the escapee filter fires at step 3 of its canonical
run, and indeed no later configuration is halted. -/
theorem runtime_filter_soundness_witness :
    ValidEntries 1 rightMoverTable ∧
      ((simRun rightMoverTable 1 Sym.s0 3).esc_verdict = true ∨
        (simRun rightMoverTable 1 Sym.s0 3).cyc_verdict = true) ∧
      ¬ (simRun rightMoverTable 1 Sym.s0 3).tm.current_state = HALT_STATE ∧
      ∀ m, ¬ (cythonIter rightMoverTable
        (simRun rightMoverTable 1 Sym.s0 3).tm m).current_state = HALT_STATE :=
  ⟨by decide, by decide, by decide,
    runtime_filter_soundness rightMoverTable 1 Sym.s0 (by decide) (by decide) 3
      (by decide) (by decide)⟩

/-- Witness for `check_cycle_two_amended`: a two-entry history. -/
theorem check_cycle_two_amended_witness :
    ((check_cycle_two (initialTM 1 Sym.s0) []).1.length ≤ 3 ∧
      (check_cycle_two (initialTM 1 Sym.s0) []).1.getLast? =
        some ((initialTM 1 Sym.s0).current_state,
          (initialTM 1 Sym.s0).head_position, (initialTM 1 Sym.s0).tape) ∧
      ((check_cycle_two (initialTM 1 Sym.s0) []).2 = true ↔
        ((check_cycle_two (initialTM 1 Sym.s0) []).1.length = 3 ∧
          (check_cycle_two (initialTM 1 Sym.s0) []).1.get? 0 =
            (check_cycle_two (initialTM 1 Sym.s0) []).1.get? 2))) :=
  check_cycle_two_amended (initialTM 1 Sym.s0) [] (by decide)

end KCE
